import Mathlib

/-!
# Manifest loader and inclusion filter

A shallow embedding of `vendor/github.com/openshift/library-go/pkg/manifest/manifest.go`.

Conventions of the embedding.

* A Go `error` is `Option Error`: `none` is the nil error.
* A Go `[]byte` / `string` is a `String`; the nil slice is the empty string.
* A Go `[]T` is a `List T`; the nil slice is `[]`.
* A `map[resourceId]bool` whose values are only ever `true` and which is only
  tested for key presence is the list of its keys.
* A `map[string]string` is an association list read with `List.lookup`; the nil
  map is `none`.
* A pointer is an `Option`; dereferencing `none` is the run-time fault
  `Outcome.crash`.
* The YAML/JSON stream decoder, the scheme codec and the file system are
  supplied from outside the package; they are parameters of the definitions.
-/

namespace manifest

/-! ## Data model -/

/-- The result of a Go call that may end in a run-time fault (a nil pointer
dereference) instead of returning. -/
inductive Outcome (α : Type) where
  | crash : Outcome α
  | ret (a : α) : Outcome α
deriving DecidableEq, Repr

/-- Sequencing of calls: a fault in the first call is the fault of the whole. -/
def Outcome.bind {α β : Type} (x : Outcome α) (f : α → Outcome β) : Outcome β :=
  match x with
  | .crash => .crash
  | .ret a => f a

/-- The identity of a Kubernetes resource (source lines 29-40). -/
structure resourceId where
  Group : String
  Kind : String
  Name : String
  Namespace : String
deriving DecidableEq, Repr

/-- The type `schema.GroupVersionKind`. -/
structure GroupVersionKind where
  Group : String
  Version : String
  Kind : String
deriving DecidableEq, Repr

/-- The type `unstructured.Unstructured`, seen through the accessors the package
calls on it: `GroupVersionKind()`, `GetNamespace()`, `GetName()`,
`GetAnnotations()`; `content` stands for everything else in the object. -/
structure Unstructured where
  groupVersionKind : GroupVersionKind
  getNamespace : String
  getName : String
  getAnnotations : Option (List (String × String))
  content : String
deriving DecidableEq, Repr

/-- The type `Manifest` (source lines 50-62). -/
structure Manifest where
  OriginalFilename : String
  id : resourceId
  Raw : String
  GVK : GroupVersionKind
  Obj : Option Unstructured
deriving DecidableEq, Repr

/-- The value of the composite literal `Manifest{}`. -/
def Manifest.zero : Manifest :=
  { OriginalFilename := "", id := ⟨"", "", "", ""⟩, Raw := "", GVK := ⟨"", "", ""⟩, Obj := none }

/-- Error values. `text` is an error made by `errors.New` or `fmt.Errorf` whose
message is spelled out; `external` is an error made by a library outside the
package; `requiredFields id` and `duplicate id` are the two `fmt.Errorf` errors
whose message prints a `resourceId`; `wrap e ctx` is `errors.Wrapf(e, ctx)`. -/
inductive Error where
  | text (message : String)
  | external (message : String)
  | requiredFields (id : resourceId)
  | duplicate (id : resourceId)
  | wrap (inner : Error) (context : String)
deriving DecidableEq, Repr

/-- `resourceId.equal` (source lines 64-66): `reflect.DeepEqual` on two structs
of four strings. -/
def resourceId.equal (r id : resourceId) : Bool :=
  decide (r = id)

/-- `Manifest.SameResourceID` (source lines 76-78). -/
def Manifest.SameResourceID (m other : Manifest) : Bool :=
  m.id.equal other.id

/-! ## Decoding one document -/

/-- `validateResourceId` (source lines 299-304). -/
def validateResourceId (id : resourceId) : Option Error :=
  if id.Kind = "" ∨ id.Name = "" then some (.requiredFields id) else none

/-- What `scheme.Codecs.UniversalDecoder().Decode(in, nil, &unstructured.Unstructured{})`
gives for some bytes: an error, an object of another type, or an
`*unstructured.Unstructured`. -/
inductive Decoded where
  | failure (message : String)
  | otherType
  | object (ud : Unstructured)
deriving DecidableEq, Repr

/-- The scheme codec: a function of the bytes it is given. -/
abbrev Codec := String → Decoded

/-- `Manifest.UnmarshalJSON` (source lines 82-115), as a function of the manifest
pointed to by the receiver and the input bytes; it returns the manifest as the
call leaves it and the error. The receiver is the address of a local variable
and is never nil, so the test of line 83 is not taken. -/
def Manifest.UnmarshalJSON (codec : Codec) (m : Manifest) (input : String) :
    Manifest × Option Error :=
  if input = "null" then
    ({ m with Raw := "" }, none)
  else
    let m := { m with Raw := input }
    match codec input with
    | .failure e => (m, some (.wrap (.external e) "unable to decode manifest"))
    | .otherType =>
        (m, some (.text "expected manifest to decode into *unstructured.Unstructured, got *unstructured.Unstructured"))
    | .object ud =>
        let m := { m with GVK := ud.groupVersionKind }
        let m := { m with Obj := some ud }
        let m := { m with id := { Group := m.GVK.Group, Kind := m.GVK.Kind,
                                  Namespace := ud.getNamespace, Name := ud.getName } }
        (m, validateResourceId m.id)

/-- One document of an input stream, as the stream decoder
`yaml.NewYAMLOrJSONDecoder(r, 1024)` meets it in one call of `d.Decode(&m)`:
`unreadable` is a document on which the decoder fails before it reaches the
manifest (a read error, text that is neither YAML nor JSON); `nothing` is a
document with no bytes to unmarshal, for which the decoder returns nil and leaves
the manifest untouched; `json input` is a document whose JSON bytes `input` the
decoder hands to `Manifest.UnmarshalJSON`. The end of the list is `io.EOF`. -/
inductive Document where
  | unreadable (message : String)
  | nothing
  | json (input : String)
deriving DecidableEq, Repr

/-- One call `d.Decode(&m)` on a document. -/
def Decode (codec : Codec) (d : Document) (m : Manifest) : Manifest × Option Error :=
  match d with
  | .unreadable e => (m, some (.external e))
  | .nothing => (m, none)
  | .json input => Manifest.UnmarshalJSON codec m input

/-- The predicate `unicode.IsSpace`. -/
def isSpace (c : Char) : Bool :=
  let n := c.toNat
  n = 9 || n = 10 || n = 11 || n = 12 || n = 13 || n = 32 || n = 0x85 || n = 0xA0 ||
  n = 0x1680 || (0x2000 ≤ n && n ≤ 0x200a) || n = 0x2028 || n = 0x2029 || n = 0x202f ||
  n = 0x205f || n = 0x3000

/-- The function `bytes.TrimSpace`: leading and trailing white space removed. -/
def trimSpace (s : String) : String :=
  String.mk ((s.data.dropWhile isSpace).reverse.dropWhile isSpace).reverse

/-- `addIfNotDuplicateResource` (source lines 306-312): the map after the call
and the error. -/
def addIfNotDuplicateResource (manifest : Manifest) (resourceIds : List resourceId) :
    List resourceId × Option Error :=
  if manifest.id ∈ resourceIds then
    (resourceIds, some (.duplicate manifest.id))
  else
    (manifest.id :: resourceIds, none)

/-! ## ParseManifests -/

/-- The `for` loop of `ParseManifests` (source lines 278-294) from a state
`theseIds`, `manifests` on the documents that remain; it returns the final map
together with the two results of the function. -/
def parseLoop (codec : Codec) :
    List Document → List resourceId → List Manifest →
      List resourceId × List Manifest × Option Error
  | [], theseIds, manifests => (theseIds, manifests, none)
  | d :: rest, theseIds, manifests =>
    match Decode codec d Manifest.zero with
    | (_, some err) => (theseIds, manifests, some (.wrap err "error parsing"))
    | (m, none) =>
      let m := { m with Raw := trimSpace m.Raw }
      if m.Raw.length = 0 ∨ m.Raw = "null" then
        parseLoop codec rest theseIds manifests
      else
        match addIfNotDuplicateResource m theseIds with
        | (_, some err) => (theseIds, manifests, some err)
        | (theseIds, none) => parseLoop codec rest theseIds (manifests ++ [m])

/-- `ParseManifests` (source lines 274-295) on the stream of documents the reader
holds. -/
def ParseManifests (codec : Codec) (r : List Document) : List Manifest × Option Error :=
  (parseLoop codec r [] []).2

/-! ## ManifestsFromFiles -/

/-- An open file: the name it was opened under and the documents it holds. -/
structure File where
  name : String
  content : List Document
deriving DecidableEq, Repr

/-- The file system: the documents of each path that can be opened. -/
abbrev FileSystem := String → Option (List Document)

/-- The function `os.Open`: the file and a nil error, or a nil file and an error. -/
def osOpen (fs : FileSystem) (path : String) : Option File × Option Error :=
  match fs path with
  | some content => (some { name := path, content := content }, none)
  | none => (none, some (.external ("open " ++ path ++ ": no such file or directory")))

/-- The method `(*os.File).Name`, whose body reads a field of the receiver. -/
def File.Name (file : Option File) : Outcome String :=
  match file with
  | none => .crash
  | some f => .ret f.name

/-- The last element of a list of characters split at `/`. -/
def lastElement : List Char → List Char → List Char
  | [], acc => acc
  | c :: cs, acc => if c = '/' then lastElement cs [] else lastElement cs (acc ++ [c])

/-- The function `filepath.Base` with `/` as separator. -/
def filepathBase (path : String) : String :=
  if path = "" then "."
  else
    let p := (path.data.reverse.dropWhile (fun c => c = '/')).reverse
    if p = [] then "/" else String.mk (lastElement p [])

/-- The inner `for _, m := range ms` loop of `ManifestsFromFiles` (source lines
253-259). The loop variable `m` is a copy of the element: the assignment to
`m.OriginalFilename` changes the copy, which is passed to
`addIfNotDuplicateResource` and then dropped. The state is `ids` and `errs`. -/
def rangeManifests (name : String) :
    List Manifest → List resourceId → List Error → List resourceId × List Error
  | [], ids, errs => (ids, errs)
  | m :: ms, ids, errs =>
    let m := { m with OriginalFilename := filepathBase name }
    match addIfNotDuplicateResource m ids with
    | (ids, some err) =>
        rangeManifests name ms ids (errs ++ [.wrap err ("File " ++ name ++ " contains")])
    | (ids, none) => rangeManifests name ms ids errs

/-- The state of the outer loop of `ManifestsFromFiles`. -/
structure LoadState where
  manifests : List Manifest
  ids : List resourceId
  errs : List Error
deriving DecidableEq, Repr

/-- The outer `for _, file := range files` loop of `ManifestsFromFiles` (source
lines 240-261). -/
def filesLoop (codec : Codec) (fs : FileSystem) : List String → LoadState → Outcome LoadState
  | [], st => .ret st
  | path :: rest, st =>
    match osOpen fs path with
    | (file, some err) =>
        (File.Name file).bind fun name =>
          filesLoop codec fs rest
            { st with errs := st.errs ++ [.wrap err ("error opening " ++ name)] }
    | (file, none) =>
        match file with
        | none => .crash -- not reached: a nil error of os.Open comes with a file
        | some f =>
          match ParseManifests codec f.content with
          | (_, some err) =>
              (File.Name file).bind fun name =>
                filesLoop codec fs rest
                  { st with errs := st.errs ++ [.wrap err ("error parsing " ++ name)] }
          | (ms, none) =>
              (File.Name file).bind fun name =>
                let (ids, errs) := rangeManifests name ms st.ids st.errs
                filesLoop codec fs rest
                  { manifests := st.manifests ++ ms, ids := ids, errs := errs }

/-- `ManifestsFromFiles` (source lines 236-269). The error returned is
`fmt.Errorf("error loading manifests: %v", agg.Error())` for the aggregate
`agg` of `errs`; it is represented by the list `errs` it is built from, which
`utilerrors.NewAggregate` turns into nil exactly when it is empty. -/
def ManifestsFromFiles (codec : Codec) (fs : FileSystem) (files : List String) :
    Outcome (List Manifest × Option (List Error)) :=
  (filesLoop codec fs files { manifests := [], ids := [], errs := [] }).bind fun st =>
    if st.errs ≠ [] then .ret ([], some st.errs) else .ret (st.manifests, none)

/-! ## Include -/

/-- The constant `CapabilityAnnotation` (source line 22). -/
def CapabilityAnnotation : String := "capability.openshift.io/name"

/-- The constant `DefaultClusterProfile` (source line 23). -/
def DefaultClusterProfile : String := "self-managed-high-availability"

/-- Modelled from the spec: the constant `configv1.TechPreviewNoUpgrade` of the
package `github.com/openshift/api/config/v1`, the tech-preview marker, the only
recognised value of the feature-gate annotation; its declaration is not part of
the sources. -/
def TechPreviewNoUpgrade : String := "TechPreviewNoUpgrade"

/-- The type `configv1.ClusterVersionCapabilitiesStatus`: the two fields the
package reads, each a slice of capability names. -/
structure ClusterVersionCapabilitiesStatus where
  EnabledCapabilities : List String
  KnownCapabilities : List String
deriving DecidableEq, Repr

/-- A map read `annotations[key]`: the value and whether the key is present. -/
def index (annotations : List (String × String)) (key : String) : String × Bool :=
  match annotations.lookup key with
  | some v => (v, true)
  | none => ("", false)

/-- The pieces of a list of characters between the occurrences of `sep`. -/
def splitChars (sep : Char) : List Char → List (List Char)
  | [] => [[]]
  | c :: cs =>
    if c = sep then [] :: splitChars sep cs
    else
      match splitChars sep cs with
      | [] => [[c]]
      | w :: ws => (c :: w) :: ws

/-- The call `strings.Split(val, "+")`. -/
def stringsSplitPlus (val : String) : List String :=
  (splitChars '+' val.data).map String.mk

/-- `getManifestCapabilities` (source lines 215-229); a capability is its name. -/
def getManifestCapabilities (annotations : List (String × String)) : List String :=
  let (val, ok) := index annotations CapabilityAnnotation
  if !ok ∨ val = "" then []
  else stringsSplitPlus val

/-- The loops `for _, x := range xs { if c == x { flag = true } }` of
`checkResourceEnablement` (source lines 178-182 and 187-192). -/
def rangeFlag (c : String) (xs : List String) : Bool :=
  xs.foldl (fun flag x => if c = x then true else flag) false

/-- The loop `for _, c := range caps` of `checkResourceEnablement` (source lines
174-196) with its state `unknownCaps`, `disabledCaps`. -/
def rangeCaps (capabilities : ClusterVersionCapabilitiesStatus) :
    List String → List String → List String → List String × List String
  | [], unknownCaps, disabledCaps => (unknownCaps, disabledCaps)
  | c :: caps, unknownCaps, disabledCaps =>
    let isKnownCap := rangeFlag c capabilities.KnownCapabilities
    if !isKnownCap then
      rangeCaps capabilities caps (unknownCaps ++ [c]) disabledCaps
    else
      let isEnabledCap := rangeFlag c capabilities.EnabledCapabilities
      if !isEnabledCap then
        rangeCaps capabilities caps unknownCaps (disabledCaps ++ [c])
      else
        rangeCaps capabilities caps unknownCaps disabledCaps

/-- `checkResourceEnablement` (source lines 168-204). -/
def checkResourceEnablement (annotations : List (String × String))
    (capabilities : ClusterVersionCapabilitiesStatus) : Option Error :=
  let caps := getManifestCapabilities annotations
  let (unknownCaps, disabledCaps) := rangeCaps capabilities caps [] []
  if unknownCaps.length > 0 then
    some (.text ("unrecognized capability names: " ++ ", ".intercalate unknownCaps))
  else if disabledCaps.length > 0 then
    some (.text ("disabled capabilities: " ++ ", ".intercalate disabledCaps))
  else none

/-- The block `if excludeIdentifier != nil` of `Include` (source lines 128-133):
the error it returns, or `none` when control passes on. -/
def excludeIdentifierBlock (annotations : List (String × String))
    (excludeIdentifier : Option String) : Option Error :=
  match excludeIdentifier with
  | none => none
  | some id =>
    let excludeAnnotation := "exclude.release.openshift.io/" ++ id
    let v := (index annotations excludeAnnotation).1
    if v = "true" then some (.text ( excludeAnnotation ++ "=" ++ v)) else none

/-- The block `if includeTechPreview != nil` of `Include` (source lines 135-145). -/
def includeTechPreviewBlock (annotations : List (String × String))
    (includeTechPreview : Option Bool) : Option Error :=
  match includeTechPreview with
  | none => none
  | some enabled =>
    let featureGateAnnotation := "release.openshift.io/feature-gate"
    let (featureGateAnnotationValue, featureGateAnnotationExists) :=
      index annotations featureGateAnnotation
    if featureGateAnnotationValue = TechPreviewNoUpgrade ∧ enabled = false then
      some (.text ("tech-preview excluded, and " ++ featureGateAnnotation ++ "=" ++
        featureGateAnnotationValue))
    else if featureGateAnnotationExists = true ∧
        featureGateAnnotationValue ≠ TechPreviewNoUpgrade then
      some (.text ("unrecognized value " ++ featureGateAnnotation ++ "=" ++
        featureGateAnnotationValue))
    else none

/-- The block `if profile != nil` of `Include` (source lines 147-154). -/
def profileBlock (annotations : List (String × String)) (profile : Option String) :
    Option Error :=
  match profile with
  | none => none
  | some p =>
    let profileAnnotation := "include.release.openshift.io/" ++ p
    let (val, ok) := index annotations profileAnnotation
    if ok = true ∧ val ≠ "true" then
      some (.text ("unrecognized value " ++ profileAnnotation ++ "=" ++ val))
    else if ok = false then
      some (.text ( profileAnnotation ++ " unset"))
    else none

/-- `Manifest.Include` (source lines 121-161). `m.Obj.GetAnnotations()` reads
through the pointer `m.Obj`. -/
def Manifest.Include (m : Manifest) (excludeIdentifier : Option String)
    (includeTechPreview : Option Bool) (profile : Option String)
    (capabilities : Option ClusterVersionCapabilitiesStatus) : Outcome (Option Error) :=
  match m.Obj with
  | none => .crash
  | some obj =>
    match obj.getAnnotations with
    | none => .ret (some (.text "no annotations"))
    | some annotations =>
      match excludeIdentifierBlock annotations excludeIdentifier with
      | some err => .ret (some err)
      | none =>
        match includeTechPreviewBlock annotations includeTechPreview with
        | some err => .ret (some err)
        | none =>
          match profileBlock annotations profile with
          | some err => .ret (some err)
          | none =>
            match capabilities with
            | some caps => .ret (checkResourceEnablement annotations caps)
            | none => .ret none

/-- `Manifest.GetManifestCapabilities` (source lines 207-213). -/
def Manifest.GetManifestCapabilities (m : Manifest) : Outcome (List String) :=
  match m.Obj with
  | none => .crash
  | some obj =>
    match obj.getAnnotations with
    | none => .ret []
    | some annotations => .ret (getManifestCapabilities annotations)

/-! ## Notions used in the statements -/

/-- The stored fields of a manifest other than its file name: identity, raw
bytes, group-version-kind and object. -/
def Manifest.payload (m : Manifest) : resourceId × String × GroupVersionKind × Option Unstructured :=
  (m.id, m.Raw, m.GVK, m.Obj)

/-- The manifest `ParseManifests` holds for a document after `d.Decode(&m)` and
the trimming of `m.Raw` (source lines 279-286). -/
def docManifest (codec : Codec) (d : Document) : Manifest :=
  let m := (Decode codec d Manifest.zero).1
  { m with Raw := trimSpace m.Raw }

/-- A document decodes: `d.Decode(&m)` returns a nil error. -/
def decodes (codec : Codec) (d : Document) : Bool :=
  (Decode codec d Manifest.zero).2 = none

/-- A null or empty document: it decodes and what is left of `m.Raw` after
trimming is empty or is `null` (the test of source line 287). -/
def nullOrEmpty (codec : Codec) (d : Document) : Bool :=
  decodes codec d ∧ ((docManifest codec d).Raw.length = 0 ∨ (docManifest codec d).Raw = "null")

/-- A valid resource document: it decodes and is not null or empty. -/
def validResource (codec : Codec) (d : Document) : Bool :=
  decodes codec d ∧ ¬ nullOrEmpty codec d

/-- A codec given by a finite table; bytes outside the table do not decode. -/
def tableCodec (table : List (String × Decoded)) : Codec :=
  fun input => (table.lookup input).getD (.failure "cannot decode")

/-- The files of a directory given by a finite table; other paths do not open. -/
def tableFiles (table : List (String × List Document)) : FileSystem :=
  fun path => table.lookup path

/-- An object with the given group, version, kind, namespace and name, without
annotations. -/
def plainObject (group version kind ns name : String) : Unstructured :=
  { groupVersionKind := ⟨group, version, kind⟩, getNamespace := ns, getName := name,
    getAnnotations := none, content := "" }

/-- The manifests `ParseManifests` returns for the file at a path; none for a
path that does not open. -/
def parsedManifests (codec : Codec) (fs : FileSystem) (path : String) : List Manifest :=
  match fs path with
  | some content => (ParseManifests codec content).1
  | none => []

/-! ## Examples -/

/-- A codec for the examples: two versions of a deployment `a`, two versions of
a pod `b`, a pod `c`, and an object without kind. -/
def exampleCodec : Codec :=
  tableCodec
    [ ("deployment-a-v1", .object (plainObject "apps" "v1" "Deployment" "default" "a")),
      ("deployment-a-v1beta1", .object (plainObject "apps" "v1beta1" "Deployment" "default" "a")),
      ("pod-b-v1", .object (plainObject "" "v1" "Pod" "default" "b")),
      ("pod-b-v2", .object (plainObject "" "v2" "Pod" "default" "b")),
      ("pod-c-v1", .object (plainObject "" "v1" "Pod" "default" "c")),
      ("nokind", .object (plainObject "" "v1" "" "default" "d")) ]

/-- A directory for the examples. -/
def exampleFiles : FileSystem :=
  tableFiles
    [ ("/manifests/a.yaml", [.json "deployment-a-v1", .json "null", .json "pod-b-v1"]),
      ("/manifests/b.yaml", [.json "deployment-a-v1beta1"]),
      ("/manifests/c.yaml", [.json "pod-c-v1"]) ]

/-- A stream for the examples: pod `b` twice, then deployment `a` twice. -/
def exampleStream : List Document :=
  [.json "pod-b-v1", .json "pod-b-v2", .json "deployment-a-v1", .json "deployment-a-v1beta1"]

/-- A manifest for the examples: a pod tagged for the default profile and for
tech preview. -/
def exampleManifest : Manifest :=
  { OriginalFilename := "",
    id := { Group := "", Kind := "Pod", Name := "e", Namespace := "default" },
    Raw := "pod-e-v1", GVK := ⟨"", "v1", "Pod"⟩,
    Obj := some
      { groupVersionKind := ⟨"", "v1", "Pod"⟩, getNamespace := "default", getName := "e",
        getAnnotations := some
          [ ("include.release.openshift.io/self-managed-high-availability", "true"),
            ("release.openshift.io/feature-gate", "TechPreviewNoUpgrade") ],
        content := "" } }

/-- An object for the examples: a pod with the given annotation map. -/
def annotatedObject (annotations : Option (List (String × String))) : Unstructured :=
  { groupVersionKind := ⟨"", "v1", "Pod"⟩, getNamespace := "default", getName := "e",
    getAnnotations := annotations, content := "" }

/-- A manifest for the examples: a pod with the given annotation map. -/
def annotatedManifest (annotations : Option (List (String × String))) : Manifest :=
  { OriginalFilename := "",
    id := { Group := "", Kind := "Pod", Name := "e", Namespace := "default" },
    Raw := "pod-e-v1", GVK := ⟨"", "v1", "Pod"⟩, Obj := some (annotatedObject annotations) }

/-! ## Lemmas on the parse loop -/

theorem decode_error_of_not_decodes (codec : Codec) (d : Document)
    (h : decodes codec d = false) : ∃ err, (Decode codec d Manifest.zero).2 = some err := by
  unfold decodes at h
  cases hd : (Decode codec d Manifest.zero).2 with
  | none => simp [hd] at h
  | some err => exact ⟨err, rfl⟩

theorem parseLoop_cons_fail (codec : Codec) (d : Document) (rest : List Document)
    (ids : List resourceId) (acc : List Manifest) (err : Error)
    (h : (Decode codec d Manifest.zero).2 = some err) :
    parseLoop codec (d :: rest) ids acc = (ids, acc, some (.wrap err "error parsing")) := by
  rcases hd : Decode codec d Manifest.zero with ⟨m, e⟩
  rw [hd] at h
  simp only at h
  subst h
  simp only [parseLoop, hd]

theorem parseLoop_cons_skip (codec : Codec) (d : Document) (rest : List Document)
    (ids : List resourceId) (acc : List Manifest) (h : nullOrEmpty codec d = true) :
    parseLoop codec (d :: rest) ids acc = parseLoop codec rest ids acc := by
  rcases hd : Decode codec d Manifest.zero with ⟨m, e⟩
  simp only [nullOrEmpty, decodes, docManifest, hd, decide_eq_true_eq] at h
  obtain ⟨he, hraw⟩ := h
  subst he
  simp only [parseLoop, hd]
  rw [if_pos hraw]

theorem parseLoop_cons_valid (codec : Codec) (d : Document) (rest : List Document)
    (ids : List resourceId) (acc : List Manifest) (h : validResource codec d = true) :
    parseLoop codec (d :: rest) ids acc =
      if (docManifest codec d).id ∈ ids then
        (ids, acc, some (.duplicate (docManifest codec d).id))
      else
        parseLoop codec rest ((docManifest codec d).id :: ids) (acc ++ [docManifest codec d]) := by
  rcases hd : Decode codec d Manifest.zero with ⟨m, e⟩
  simp only [validResource, nullOrEmpty, decodes, docManifest, hd, decide_eq_true_eq,
    Bool.decide_and, Bool.decide_or, Bool.and_eq_true, Bool.or_eq_true, not_and, not_or] at h
  obtain ⟨he, hraw⟩ := h
  subst he
  have hraw2 := hraw rfl
  simp only [parseLoop, hd, docManifest]
  rw [if_neg (by intro hc; rcases hc with hc | hc; exact hraw2.1 hc; exact hraw2.2 hc)]
  simp only [addIfNotDuplicateResource]
  split_ifs <;> rfl

theorem document_cases (codec : Codec) (d : Document) :
    decodes codec d = false ∨ nullOrEmpty codec d = true ∨ validResource codec d = true := by
  unfold validResource
  cases decodes codec d <;> cases nullOrEmpty codec d <;> simp

theorem parseLoop_append_ok (codec : Codec) (post : List Document) :
    ∀ (pre : List Document) (ids : List resourceId) (acc : List Manifest)
      (ids' : List resourceId) (acc' : List Manifest),
      parseLoop codec pre ids acc = (ids', acc', none) →
      parseLoop codec (pre ++ post) ids acc = parseLoop codec post ids' acc' := by
  intro pre
  induction pre with
  | nil =>
    intro ids acc ids' acc' h
    simp only [parseLoop, Prod.mk.injEq, and_true] at h
    obtain ⟨h1, h2⟩ := h
    subst h1; subst h2
    rfl
  | cons d rest ih =>
    intro ids acc ids' acc' h
    rcases document_cases codec d with hd | hd | hd
    · obtain ⟨err, herr⟩ := decode_error_of_not_decodes codec d hd
      rw [parseLoop_cons_fail codec d rest ids acc err herr] at h
      simp at h
    · rw [parseLoop_cons_skip codec d rest ids acc hd] at h
      rw [List.cons_append, parseLoop_cons_skip codec d _ ids acc hd]
      exact ih ids acc ids' acc' h
    · rw [parseLoop_cons_valid codec d rest ids acc hd] at h
      rw [List.cons_append, parseLoop_cons_valid codec d _ ids acc hd]
      by_cases hmem : (docManifest codec d).id ∈ ids
      · rw [if_pos hmem] at h
        simp at h
      · rw [if_neg hmem] at h
        rw [if_neg hmem]
        exact ih _ _ ids' acc' h

theorem parseLoop_append_err (codec : Codec) (post : List Document) :
    ∀ (pre : List Document) (ids : List resourceId) (acc : List Manifest)
      (ids' : List resourceId) (acc' : List Manifest) (err : Error),
      parseLoop codec pre ids acc = (ids', acc', some err) →
      parseLoop codec (pre ++ post) ids acc = (ids', acc', some err) := by
  intro pre
  induction pre with
  | nil =>
    intro ids acc ids' acc' err h
    simp [parseLoop] at h
  | cons d rest ih =>
    intro ids acc ids' acc' err h
    rcases document_cases codec d with hd | hd | hd
    · obtain ⟨e, he⟩ := decode_error_of_not_decodes codec d hd
      rw [parseLoop_cons_fail codec d rest ids acc e he] at h
      rw [List.cons_append, parseLoop_cons_fail codec d _ ids acc e he]
      exact h
    · rw [parseLoop_cons_skip codec d rest ids acc hd] at h
      rw [List.cons_append, parseLoop_cons_skip codec d _ ids acc hd]
      exact ih ids acc ids' acc' err h
    · rw [parseLoop_cons_valid codec d rest ids acc hd] at h
      rw [List.cons_append, parseLoop_cons_valid codec d _ ids acc hd]
      by_cases hmem : (docManifest codec d).id ∈ ids
      · rw [if_pos hmem] at h
        rw [if_pos hmem]
        exact h
      · rw [if_neg hmem] at h
        rw [if_neg hmem]
        exact ih _ _ ids' acc' err h

/-- A document on which the loop stops: whatever follows it is not read. -/
theorem parseLoop_stops (codec : Codec) (d : Document) (ids : List resourceId)
    (acc : List Manifest) (err : Error)
    (h : (parseLoop codec [d] ids acc).2.2 = some err) (post : List Document) :
    parseLoop codec (d :: post) ids acc = (ids, acc, some err) := by
  rcases document_cases codec d with hd | hd | hd
  · obtain ⟨e, he⟩ := decode_error_of_not_decodes codec d hd
    rw [parseLoop_cons_fail codec d [] ids acc e he] at h
    rw [parseLoop_cons_fail codec d post ids acc e he]
    simp only [Option.some.injEq] at h
    rw [h]
  · rw [parseLoop_cons_skip codec d [] ids acc hd] at h
    simp [parseLoop] at h
  · rw [parseLoop_cons_valid codec d [] ids acc hd] at h
    rw [parseLoop_cons_valid codec d post ids acc hd]
    by_cases hmem : (docManifest codec d).id ∈ ids
    · rw [if_pos hmem] at h
      rw [if_pos hmem]
      simp only [Option.some.injEq] at h
      rw [h]
    · rw [if_neg hmem] at h
      simp [parseLoop] at h

/-- The documents that are valid resources, spelled out. -/
theorem validResource_iff (codec : Codec) (d : Document) :
    validResource codec d = true ↔
      ∃ input ud, d = .json input ∧ input ≠ "null" ∧ codec input = .object ud ∧
        ud.groupVersionKind.Kind ≠ "" ∧ ud.getName ≠ "" ∧
        (trimSpace input).length ≠ 0 ∧ trimSpace input ≠ "null" := by
  cases d with
  | unreadable e => simp [validResource, decodes, Decode]
  | nothing =>
    simp [validResource, decodes, nullOrEmpty, Decode, docManifest, Manifest.zero, trimSpace]
  | json input =>
    by_cases hnull : input = "null"
    · subst hnull
      simp [validResource, decodes, nullOrEmpty, Decode, docManifest, Manifest.UnmarshalJSON,
        trimSpace]
    · cases hc : codec input with
      | failure e =>
        simp [validResource, decodes, Decode, Manifest.UnmarshalJSON, hnull, hc]
      | otherType =>
        simp [validResource, decodes, Decode, Manifest.UnmarshalJSON, hnull, hc]
      | object ud =>
        simp only [validResource, decodes, nullOrEmpty, Decode, docManifest,
          Manifest.UnmarshalJSON, hnull, hc, if_false, validateResourceId]
        by_cases hk : ud.groupVersionKind.Kind = "" ∨ ud.getName = ""
        · simp only [hk, if_true]
          constructor
          · intro h
            simp at h
          · rintro ⟨i, u, hi, _, hu, h1, h2, _⟩
            simp only [Document.json.injEq] at hi
            subst hi
            rw [hc] at hu
            simp only [Decoded.object.injEq] at hu
            subst hu
            rcases hk with hk | hk
            · exact absurd hk h1
            · exact absurd hk h2
        · simp only [hk, if_false]
          rw [not_or] at hk
          constructor
          · intro h
            simp at h
            exact ⟨input, ud, rfl, hnull, hc, hk.1, hk.2, h.1, h.2⟩
          · rintro ⟨i, u, hi, _, _, _, _, h3, h4⟩
            simp only [Document.json.injEq] at hi
            subst hi
            simp [h3, h4]

/-- The manifest of a decoded resource document, field by field. -/
theorem docManifest_json (codec : Codec) (input : String) (ud : Unstructured)
    (hnull : input ≠ "null") (hc : codec input = .object ud) :
    docManifest codec (.json input) =
      { OriginalFilename := "",
        id := { Group := ud.groupVersionKind.Group, Kind := ud.groupVersionKind.Kind,
                Name := ud.getName, Namespace := ud.getNamespace },
        Raw := trimSpace input, GVK := ud.groupVersionKind, Obj := some ud } := by
  simp [docManifest, Decode, Manifest.UnmarshalJSON, hnull, hc, Manifest.zero]

theorem parseLoop_nulls (codec : Codec) (post : List Document) (ids : List resourceId)
    (acc : List Manifest) :
    ∀ nulls : List Document, (∀ d ∈ nulls, nullOrEmpty codec d = true) →
      parseLoop codec (nulls ++ post) ids acc = parseLoop codec post ids acc := by
  intro nulls
  induction nulls with
  | nil => intro _; rfl
  | cons d rest ih =>
    intro h
    rw [List.cons_append, parseLoop_cons_skip codec d _ ids acc (h d (List.mem_cons_self d rest))]
    exact ih (fun x hx => h x (List.mem_cons_of_mem d hx))

theorem parseLoop_insert_nulls (codec : Codec) (pre nulls post : List Document)
    (ids : List resourceId) (acc : List Manifest)
    (h : ∀ d ∈ nulls, nullOrEmpty codec d = true) :
    parseLoop codec (pre ++ nulls ++ post) ids acc = parseLoop codec (pre ++ post) ids acc := by
  rcases hp : parseLoop codec pre ids acc with ⟨ids', acc', _ | err⟩
  · rw [List.append_assoc, parseLoop_append_ok codec _ pre ids acc ids' acc' hp,
      parseLoop_append_ok codec _ pre ids acc ids' acc' hp]
    exact parseLoop_nulls codec post ids' acc' nulls h
  · rw [List.append_assoc, parseLoop_append_err codec _ pre ids acc ids' acc' err hp,
      parseLoop_append_err codec _ pre ids acc ids' acc' err hp]

theorem parseLoop_filter (codec : Codec) :
    ∀ (docs : List Document) (ids : List resourceId) (acc : List Manifest),
      parseLoop codec (docs.filter (fun d => !nullOrEmpty codec d)) ids acc =
        parseLoop codec docs ids acc := by
  intro docs
  induction docs with
  | nil => intro ids acc; rfl
  | cons d rest ih =>
    intro ids acc
    rcases document_cases codec d with hd | hd | hd
    · obtain ⟨e, he⟩ := decode_error_of_not_decodes codec d hd
      have hn : nullOrEmpty codec d = false := by simp [nullOrEmpty, hd]
      rw [List.filter_cons_of_pos (by simp [hn]), parseLoop_cons_fail codec d _ ids acc e he,
        parseLoop_cons_fail codec d _ ids acc e he]
    · rw [List.filter_cons_of_neg (by simp [hd]), parseLoop_cons_skip codec d rest ids acc hd]
      exact ih ids acc
    · have hn : nullOrEmpty codec d = false := by
        simp only [validResource, Bool.decide_and, Bool.and_eq_true, decide_eq_true_eq] at hd
        simpa using hd.2
      rw [List.filter_cons_of_pos (by simp [hn]), parseLoop_cons_valid codec d _ ids acc hd,
        parseLoop_cons_valid codec d _ ids acc hd]
      by_cases hmem : (docManifest codec d).id ∈ ids
      · rw [if_pos hmem, if_pos hmem]
      · rw [if_neg hmem, if_neg hmem]
        exact ih _ _

/-- Every manifest the loop returns was in the list it started from or is the
manifest of a valid resource document of the stream. -/
theorem parseLoop_output (codec : Codec) :
    ∀ (docs : List Document) (ids : List resourceId) (acc : List Manifest) (m : Manifest),
      m ∈ (parseLoop codec docs ids acc).2.1 →
      m ∈ acc ∨ ∃ d ∈ docs, validResource codec d = true ∧ m = docManifest codec d := by
  intro docs
  induction docs with
  | nil => intro ids acc m h; exact Or.inl h
  | cons d rest ih =>
    intro ids acc m h
    rcases document_cases codec d with hd | hd | hd
    · obtain ⟨e, he⟩ := decode_error_of_not_decodes codec d hd
      rw [parseLoop_cons_fail codec d rest ids acc e he] at h
      exact Or.inl h
    · rw [parseLoop_cons_skip codec d rest ids acc hd] at h
      rcases ih ids acc m h with h1 | ⟨x, hx, hv, hm⟩
      · exact Or.inl h1
      · exact Or.inr ⟨x, List.mem_cons_of_mem d hx, hv, hm⟩
    · rw [parseLoop_cons_valid codec d rest ids acc hd] at h
      by_cases hmem : (docManifest codec d).id ∈ ids
      · rw [if_pos hmem] at h
        exact Or.inl h
      · rw [if_neg hmem] at h
        rcases ih _ _ m h with h1 | ⟨x, hx, hv, hm⟩
        · rcases List.mem_append.mp h1 with h2 | h2
          · exact Or.inl h2
          · rw [List.mem_singleton] at h2
            exact Or.inr ⟨d, List.mem_cons_self d rest, hd, h2⟩
        · exact Or.inr ⟨x, List.mem_cons_of_mem d hx, hv, hm⟩

theorem ParseManifests_output (codec : Codec) (docs : List Document) (m : Manifest)
    (h : m ∈ (ParseManifests codec docs).1) :
    ∃ d ∈ docs, validResource codec d = true ∧ m = docManifest codec d := by
  rcases parseLoop_output codec docs [] [] m h with h1 | h1
  · simp at h1
  · exact h1

theorem parseLoop_distinct (codec : Codec) :
    ∀ (docs : List Document) (ids : List resourceId) (acc : List Manifest),
      (∀ d ∈ docs, validResource codec d = true) →
      (docs.map (fun d => (docManifest codec d).id)).Nodup →
      (∀ d ∈ docs, (docManifest codec d).id ∉ ids) →
      parseLoop codec docs ids acc =
        ((docs.map (fun d => (docManifest codec d).id)).reverse ++ ids,
          acc ++ docs.map (docManifest codec), none) := by
  intro docs
  induction docs with
  | nil => intro ids acc _ _ _; simp [parseLoop]
  | cons d rest ih =>
    intro ids acc hv hnd hids
    rw [parseLoop_cons_valid codec d rest ids acc (hv d (List.mem_cons_self d rest)),
      if_neg (hids d (List.mem_cons_self d rest))]
    rw [List.map_cons, List.nodup_cons] at hnd
    rw [ih _ _ (fun x hx => hv x (List.mem_cons_of_mem d hx)) hnd.2]
    · simp
    · intro x hx hmem
      rcases List.mem_cons.mp hmem with h1 | h1
      · exact hnd.1 (List.mem_map.mpr ⟨x, hx, h1⟩)
      · exact hids x (List.mem_cons_of_mem d hx) h1

/-- C5: a stream of N documents that each decode to a non-null resource with a
kind and a name, with pairwise distinct identities, parses without error into
exactly N manifests, the i-th being the decoding of the i-th document: its
object is the decoded resource, its identity and group-version-kind are read
from it, its raw bytes are the trimmed bytes of the document. -/
theorem ParseManifests_valid_distinct (codec : Codec) (docs : List Document)
    (hvalid : ∀ d ∈ docs, ∃ input ud, d = .json input ∧ input ≠ "null" ∧
      codec input = .object ud ∧ ud.groupVersionKind.Kind ≠ "" ∧ ud.getName ≠ "" ∧
      (trimSpace input).length ≠ 0 ∧ trimSpace input ≠ "null")
    (hdistinct : (docs.map (fun d => (docManifest codec d).id)).Nodup) :
    (ParseManifests codec docs).2 = none ∧
    (ParseManifests codec docs).1.length = docs.length ∧
    (ParseManifests codec docs).1 = docs.map (docManifest codec) ∧
    ∀ (i : Nat) (input : String) (ud : Unstructured),
      docs[i]? = some (.json input) → codec input = .object ud →
      (ParseManifests codec docs).1[i]? = some
        { OriginalFilename := "",
          id := { Group := ud.groupVersionKind.Group, Kind := ud.groupVersionKind.Kind,
                  Name := ud.getName, Namespace := ud.getNamespace },
          Raw := trimSpace input, GVK := ud.groupVersionKind, Obj := some ud } := by
  have hv : ∀ d ∈ docs, validResource codec d = true :=
    fun d hd => (validResource_iff codec d).mpr (hvalid d hd)
  have hrun := parseLoop_distinct codec docs [] [] hv hdistinct (fun d _ => by simp)
  have hres : (ParseManifests codec docs).1 = docs.map (docManifest codec) := by
    simp [ParseManifests, hrun]
  refine ⟨by simp [ParseManifests, hrun], by simp [hres], hres, ?_⟩
  intro i input ud hi hc
  have hmem : Document.json input ∈ docs := List.getElem?_mem hi
  obtain ⟨input', ud', heq, hnull, _⟩ := hvalid _ hmem
  simp only [Document.json.injEq] at heq
  subst heq
  rw [hres, List.getElem?_map, hi, Option.map_some', docManifest_json codec input ud hnull hc]

/-- C6: null and empty documents are transparent. Inserting or removing a block
of such documents at any position of a stream changes neither the result of
`ParseManifests` (manifests and error) nor the final duplicate-detection set,
as does removing all of them at once; none of them appears in the output. -/
theorem null_documents_transparent (codec : Codec) (pre nulls post : List Document)
    (hnull : ∀ d ∈ nulls, nullOrEmpty codec d = true) :
    ParseManifests codec (pre ++ nulls ++ post) = ParseManifests codec (pre ++ post) ∧
    (parseLoop codec (pre ++ nulls ++ post) [] []).1 = (parseLoop codec (pre ++ post) [] []).1 ∧
    parseLoop codec ((pre ++ nulls ++ post).filter (fun d => !nullOrEmpty codec d)) [] [] =
      parseLoop codec (pre ++ nulls ++ post) [] [] ∧
    ∀ d ∈ nulls, docManifest codec d ∉ (ParseManifests codec (pre ++ nulls ++ post)).1 := by
  have h := parseLoop_insert_nulls codec pre nulls post [] [] hnull
  refine ⟨by simp only [ParseManifests, h], by rw [h], parseLoop_filter codec _ [] [], ?_⟩
  intro d hd hmem
  obtain ⟨x, _, hx, hm⟩ := ParseManifests_output codec _ _ hmem
  have hdn := hnull d hd
  simp only [validResource, Bool.decide_and, Bool.and_eq_true, decide_eq_true_eq] at hx
  have hxn : nullOrEmpty codec x = false := by simpa using hx.2
  simp only [nullOrEmpty, Bool.decide_and, Bool.and_eq_true, decide_eq_true_eq,
    Bool.decide_or, Bool.or_eq_true] at hdn
  have : nullOrEmpty codec x = true := by
    simp only [nullOrEmpty, Bool.decide_and, Bool.and_eq_true, decide_eq_true_eq,
      Bool.decide_or, Bool.or_eq_true]
    refine ⟨hx.1, ?_⟩
    rw [← hm]
    exact hdn.2
  rw [hxn] at this
  exact Bool.noConfusion this

/-- C8: when `ParseManifests` fails at a document `d` (the documents `pre`
before it parse without error, and with `d` added they do not), it returns the
error together with exactly the manifests it returns for `pre` alone, whatever
documents `post` follow `d`. -/
theorem ParseManifests_stops_at_failure (codec : Codec) (pre post : List Document)
    (d : Document) (err : Error)
    (hpre : (ParseManifests codec pre).2 = none)
    (hd : (ParseManifests codec (pre ++ [d])).2 = some err) :
    ParseManifests codec (pre ++ d :: post) = ((ParseManifests codec pre).1, some err) := by
  rcases hp : parseLoop codec pre [] [] with ⟨ids', acc', e⟩
  simp only [ParseManifests, hp] at hpre
  subst hpre
  simp only [ParseManifests] at hd
  rw [parseLoop_append_ok codec _ pre [] [] ids' acc' hp] at hd
  simp only [ParseManifests]
  rw [parseLoop_append_ok codec _ pre [] [] ids' acc' hp, hp,
    parseLoop_stops codec d ids' acc' err hd post]

theorem parseLoop_error_of_undecodable (codec : Codec) :
    ∀ (docs : List Document) (ids : List resourceId) (acc : List Manifest),
      (∃ d ∈ docs, decodes codec d = false) → (parseLoop codec docs ids acc).2.2 ≠ none := by
  intro docs
  induction docs with
  | nil => intro ids acc h; simp at h
  | cons x rest ih =>
    intro ids acc h
    rcases document_cases codec x with hx | hx | hx
    · obtain ⟨e, he⟩ := decode_error_of_not_decodes codec x hx
      rw [parseLoop_cons_fail codec x rest ids acc e he]
      simp
    · have hrest : ∃ d ∈ rest, decodes codec d = false := by
        obtain ⟨d, hd, hdd⟩ := h
        rcases List.mem_cons.mp hd with h1 | h1
        · subst h1
          simp [nullOrEmpty, hdd] at hx
        · exact ⟨d, h1, hdd⟩
      rw [parseLoop_cons_skip codec x rest ids acc hx]
      exact ih ids acc hrest
    · have hrest : ∃ d ∈ rest, decodes codec d = false := by
        obtain ⟨d, hd, hdd⟩ := h
        rcases List.mem_cons.mp hd with h1 | h1
        · subst h1
          simp [validResource, hdd] at hx
        · exact ⟨d, h1, hdd⟩
      rw [parseLoop_cons_valid codec x rest ids acc hx]
      by_cases hmem : (docManifest codec x).id ∈ ids
      · rw [if_pos hmem]
        simp
      · rw [if_neg hmem]
        exact ih _ _ hrest

/-- C9: a decoded resource is rejected exactly when it lacks kind or name.
`validateResourceId` fails exactly on an identity with an empty kind or name;
for a document that decodes to a resource `ud`, `UnmarshalJSON` returns the
result of `validateResourceId` on its identity, an error exactly when the kind
or the name of `ud` is empty; `ParseManifests` then returns an error on every
stream that holds the document, and no manifest of any output lacks kind or
name. -/
theorem resource_without_kind_or_name_rejected (codec : Codec) (m : Manifest)
    (input : String) (ud : Unstructured) (docs : List Document)
    (hnull : input ≠ "null") (hdec : codec input = .object ud) :
    (∀ id : resourceId, validateResourceId id ≠ none ↔ (id.Kind = "" ∨ id.Name = "")) ∧
    (Manifest.UnmarshalJSON codec m input).2 =
      validateResourceId { Group := ud.groupVersionKind.Group, Kind := ud.groupVersionKind.Kind,
                           Name := ud.getName, Namespace := ud.getNamespace } ∧
    ((Manifest.UnmarshalJSON codec m input).2 ≠ none ↔
      (ud.groupVersionKind.Kind = "" ∨ ud.getName = "")) ∧
    ((ud.groupVersionKind.Kind = "" ∨ ud.getName = "") → Document.json input ∈ docs →
      (ParseManifests codec docs).2 ≠ none ∧
      docManifest codec (.json input) ∉ (ParseManifests codec docs).1) ∧
    (∀ m' ∈ (ParseManifests codec docs).1, m'.id.Kind ≠ "" ∧ m'.id.Name ≠ "") := by
  have hval : ∀ id : resourceId, validateResourceId id ≠ none ↔ (id.Kind = "" ∨ id.Name = "") := by
    intro id
    unfold validateResourceId
    by_cases h : id.Kind = "" ∨ id.Name = ""
    · simp [h]
    · simp only [h, if_false, iff_false]
      simp
  have hun : (Manifest.UnmarshalJSON codec m input).2 =
      validateResourceId { Group := ud.groupVersionKind.Group, Kind := ud.groupVersionKind.Kind,
                           Name := ud.getName, Namespace := ud.getNamespace } := by
    simp [Manifest.UnmarshalJSON, hnull, hdec]
  have hout : ∀ m' ∈ (ParseManifests codec docs).1, m'.id.Kind ≠ "" ∧ m'.id.Name ≠ "" := by
    intro m' hm'
    obtain ⟨d, _, hv, hm⟩ := ParseManifests_output codec docs m' hm'
    obtain ⟨i, u, hd, hi, hc, hk, hn, _⟩ := (validResource_iff codec d).mp hv
    subst hd
    rw [hm, docManifest_json codec i u hi hc]
    exact ⟨hk, hn⟩
  refine ⟨hval, hun, ?_, ?_, hout⟩
  · rw [hun]
    exact hval _
  · intro hk hmem
    constructor
    · have hnd : decodes codec (.json input) = false := by
        have := (hval { Group := ud.groupVersionKind.Group, Kind := ud.groupVersionKind.Kind,
                        Name := ud.getName, Namespace := ud.getNamespace }).mpr hk
        simp only [decodes, Decode, Manifest.UnmarshalJSON, hnull, hdec, if_false,
          decide_eq_false_iff_not]
        exact this
      exact parseLoop_error_of_undecodable codec docs [] [] ⟨_, hmem, hnd⟩
    · intro hin
      have := hout _ hin
      rw [docManifest_json codec input ud hnull hdec] at this
      rcases hk with hk | hk
      · exact this.1 hk
      · exact this.2 hk

/-- The first place at which a list repeats a value of `f`. -/
theorem first_repetition {α β : Type} (f : α → β) :
    ∀ l : List α, ¬ (l.map f).Nodup →
      ∃ pre d post, l = pre ++ d :: post ∧ (pre.map f).Nodup ∧ f d ∈ pre.map f := by
  intro l
  induction l using List.reverseRecOn with
  | nil => intro h; simp at h
  | append_singleton init x ih =>
    intro h
    by_cases hinit : (init.map f).Nodup
    · refine ⟨init, x, [], rfl, hinit, ?_⟩
      by_contra hx
      apply h
      rw [List.map_append, List.map_singleton]
      refine List.Nodup.append hinit (List.nodup_singleton _) ?_
      intro b hb hb'
      rw [List.mem_singleton] at hb'
      subst hb'
      exact hx hb
    · obtain ⟨pre, d, post, hl, hn, hd⟩ := ih hinit
      exact ⟨pre, d, post ++ [x], by rw [hl]; simp, hn, hd⟩

/-- C7, as amended: in a stream of valid resource documents in which two
documents (at positions `i < j`) have the same identity, `ParseManifests`
returns a duplicate-resource error, for the first document `second` of the
stream that repeats the identity of an earlier document `first`; the returned
list is exactly the manifests of the documents before `second`, so `first` is
in it and neither `second` nor a later document adds to it. -/
theorem ParseManifests_duplicate (codec : Codec) (docs : List Document) (i j : Nat)
    (di dj : Document)
    (hvalid : ∀ d ∈ docs, validResource codec d = true)
    (hij : i < j) (hi : docs[i]? = some di) (hj : docs[j]? = some dj)
    (hsame : (docManifest codec di).id = (docManifest codec dj).id) :
    ∃ pre first second post, docs = pre ++ second :: post ∧ first ∈ pre ∧
      (docManifest codec first).id = (docManifest codec second).id ∧
      (pre.map (fun d => (docManifest codec d).id)).Nodup ∧
      ParseManifests codec docs =
        (pre.map (docManifest codec), some (.duplicate (docManifest codec second).id)) ∧
      docManifest codec first ∈ (ParseManifests codec docs).1 ∧
      (ParseManifests codec docs).1.length = pre.length ∧ pre.length ≤ j := by
  have hjlt : j < docs.length := by
    by_contra hge
    rw [List.getElem?_eq_none (Nat.le_of_not_lt hge)] at hj
    exact Option.noConfusion hj
  have hnd : ¬ (docs.map (fun d => (docManifest codec d).id)).Nodup := by
    intro hnodup
    have hne := List.nodup_iff_getElem?_ne_getElem?.mp hnodup i j hij (by simpa using hjlt)
    apply hne
    rw [List.getElem?_map, List.getElem?_map, hi, hj]
    simp [hsame]
  obtain ⟨pre, second, post, hdocs, hpre, hrep⟩ := first_repetition _ docs hnd
  obtain ⟨first, hfirst, hfid⟩ := List.mem_map.mp hrep
  have hvpre : ∀ d ∈ pre, validResource codec d = true :=
    fun d hd => hvalid d (by rw [hdocs]; exact List.mem_append_left _ hd)
  have hvsec : validResource codec second = true :=
    hvalid second (by rw [hdocs]; simp)
  have hrun := parseLoop_distinct codec pre [] [] hvpre hpre (fun d _ => by simp)
  have hres : ParseManifests codec docs =
      (pre.map (docManifest codec), some (.duplicate (docManifest codec second).id)) := by
    simp only [ParseManifests]
    rw [hdocs, parseLoop_append_ok codec _ pre [] [] _ _ hrun,
      parseLoop_cons_valid codec second post _ _ hvsec, if_pos (by simpa using hrep)]
    simp
  refine ⟨pre, first, second, post, hdocs, hfirst, hfid, hpre, hres, ?_, ?_, ?_⟩
  · rw [hres]
    exact List.mem_map.mpr ⟨first, hfirst, rfl⟩
  · rw [hres]
    simp
  · by_contra hlt
    have hlt' : j < pre.length := Nat.lt_of_not_le hlt
    have hi' : pre[i]? = some di := by
      rw [hdocs, List.getElem?_append_left (Nat.lt_trans hij hlt')] at hi
      exact hi
    have hj' : pre[j]? = some dj := by
      rw [hdocs, List.getElem?_append_left hlt'] at hj
      exact hj
    have hne := List.nodup_iff_getElem?_ne_getElem?.mp hpre i j hij (by simpa using hlt')
    apply hne
    rw [List.getElem?_map, List.getElem?_map, hi', hj']
    simp [hsame]

/-! ## Lemmas on the file loop -/

theorem rangeManifests_fresh (name : String) :
    ∀ (ms : List Manifest) (ids : List resourceId) (errs : List Error),
      (ms.map (fun m => m.id)).Nodup → (∀ m ∈ ms, m.id ∉ ids) →
      rangeManifests name ms ids errs = ((ms.map (fun m => m.id)).reverse ++ ids, errs) := by
  intro ms
  induction ms with
  | nil => intro ids errs _ _; simp [rangeManifests]
  | cons m rest ih =>
    intro ids errs hnd hfresh
    rw [List.map_cons, List.nodup_cons] at hnd
    have hm : m.id ∉ ids := hfresh m (List.mem_cons_self m rest)
    simp only [rangeManifests, addIfNotDuplicateResource, if_neg hm]
    rw [ih _ _ hnd.2]
    · simp
    · intro x hx hmem
      rcases List.mem_cons.mp hmem with h1 | h1
      · exact hnd.1 (List.mem_map.mpr ⟨x, hx, h1⟩)
      · exact hfresh x (List.mem_cons_of_mem m hx) h1

theorem filesLoop_distinct (codec : Codec) (fs : FileSystem) :
    ∀ (files : List String) (st : LoadState),
      (∀ f ∈ files, ∃ content, fs f = some content ∧ (ParseManifests codec content).2 = none) →
      (((files.map (parsedManifests codec fs)).flatten).map (fun m => m.id)).Nodup →
      (∀ m ∈ (files.map (parsedManifests codec fs)).flatten, m.id ∉ st.ids) →
      ∃ ids, filesLoop codec fs files st =
        .ret { manifests := st.manifests ++ (files.map (parsedManifests codec fs)).flatten,
               ids := ids, errs := st.errs } := by
  intro files
  induction files with
  | nil => intro st _ _ _; exact ⟨st.ids, by simp [filesLoop]⟩
  | cons f rest ih =>
    intro st hopen hnd hfresh
    obtain ⟨content, hfs, hparse⟩ := hopen f (List.mem_cons_self f rest)
    have hpm : parsedManifests codec fs f = (ParseManifests codec content).1 := by
      simp [parsedManifests, hfs]
    rw [List.map_cons, List.flatten_cons, List.map_append, List.nodup_append] at hnd
    obtain ⟨hnd1, hnd2, hdisj⟩ := hnd
    rw [List.map_cons, List.flatten_cons] at hfresh
    have hrange := rangeManifests_fresh f (ParseManifests codec content).1 st.ids st.errs
      (by rw [← hpm]; exact hnd1)
      (fun m hm => hfresh m (List.mem_append_left _ (by rw [hpm]; exact hm)))
    rcases hpc : ParseManifests codec content with ⟨ms, e⟩
    rw [hpc] at hparse hrange hpm
    simp only at hparse hrange hpm
    subst hparse
    obtain ⟨ids, hih⟩ := ih
      { manifests := st.manifests ++ ms,
        ids := (ms.map (fun m => m.id)).reverse ++ st.ids, errs := st.errs }
      (fun x hx => hopen x (List.mem_cons_of_mem f hx)) hnd2
      (by
        intro m hm hmem
        rcases List.mem_append.mp hmem with h1 | h1
        · rw [List.mem_reverse] at h1
          exact hdisj (by rw [hpm]; exact h1) (List.mem_map.mpr ⟨m, hm, rfl⟩)
        · exact hfresh m (List.mem_append_right _ hm) h1)
    refine ⟨ids, ?_⟩
    simp only [filesLoop, osOpen, hfs, hpc, File.Name, Outcome.bind, hrange]
    rw [hih, List.map_cons, List.flatten_cons, hpm, List.append_assoc]

/-- C3: when every file opens, every file parses without error and no identity
occurs in more than one manifest of the whole list, `ManifestsFromFiles`
returns no error and the manifests it returns are, in identity, raw bytes,
group-version-kind and object, the results of `ParseManifests` on the files,
concatenated in the order of the list. -/
theorem ManifestsFromFiles_concatenation (codec : Codec) (fs : FileSystem)
    (files : List String)
    (hopen : ∀ f ∈ files, ∃ content, fs f = some content)
    (hparse : ∀ f ∈ files, ∀ content, fs f = some content →
      (ParseManifests codec content).2 = none)
    (hdistinct :
      (((files.map (parsedManifests codec fs)).flatten).map (fun m => m.id)).Nodup) :
    ∃ ms, ManifestsFromFiles codec fs files = .ret (ms, none) ∧
      ms.map Manifest.payload =
        ((files.map (parsedManifests codec fs)).flatten).map Manifest.payload := by
  obtain ⟨ids, hloop⟩ := filesLoop_distinct codec fs files
    { manifests := [], ids := [], errs := [] }
    (fun f hf => by
      obtain ⟨content, hc⟩ := hopen f hf
      exact ⟨content, hc, hparse f hf content hc⟩)
    hdistinct (fun m _ => by simp)
  refine ⟨(files.map (parsedManifests codec fs)).flatten, ?_, rfl⟩
  simp [ManifestsFromFiles, hloop, Outcome.bind]

/-- A path that does not open ends the outer loop in a fault, whatever the
state and the other paths. -/
theorem filesLoop_crash (codec : Codec) (fs : FileSystem) :
    ∀ (files : List String) (st : LoadState), (∃ f ∈ files, fs f = none) →
      filesLoop codec fs files st = .crash := by
  intro files
  induction files with
  | nil => intro st h; simp at h
  | cons f rest ih =>
    intro st h
    cases hfs : fs f with
    | none => simp [filesLoop, osOpen, hfs, File.Name, Outcome.bind]
    | some content =>
      have hrest : ∃ g ∈ rest, fs g = none := by
        obtain ⟨g, hg, hgn⟩ := h
        rcases List.mem_cons.mp hg with h1 | h1
        · subst h1
          rw [hfs] at hgn
          exact Option.noConfusion hgn
        · exact ⟨g, h1, hgn⟩
      simp only [filesLoop, osOpen, hfs]
      rcases hpc : ParseManifests codec content with ⟨ms, _ | e⟩
      · simp only [File.Name, Outcome.bind]
        exact ih _ hrest
      · simp only [File.Name, Outcome.bind]
        exact ih _ hrest

theorem ManifestsFromFiles_crash (codec : Codec) (fs : FileSystem) (files : List String)
    (h : ∃ f ∈ files, fs f = none) : ManifestsFromFiles codec fs files = .crash := by
  simp [ManifestsFromFiles, filesLoop_crash codec fs files _ h, Outcome.bind]

theorem rangeManifests_ids (name : String) :
    ∀ (ms : List Manifest) (ids : List resourceId) (errs : List Error) (x : resourceId),
      x ∈ ids ∨ x ∈ ms.map (fun m => m.id) → x ∈ (rangeManifests name ms ids errs).1 := by
  intro ms
  induction ms with
  | nil =>
    intro ids errs x h
    simpa [rangeManifests] using h
  | cons m rest ih =>
    intro ids errs x h
    simp only [rangeManifests, addIfNotDuplicateResource]
    by_cases hm : m.id ∈ ids
    · rw [if_pos hm]
      apply ih
      rcases h with h | h
      · exact Or.inl h
      · rcases List.mem_cons.mp h with h1 | h1
        · exact Or.inl (h1 ▸ hm)
        · exact Or.inr h1
    · rw [if_neg hm]
      apply ih
      rcases h with h | h
      · exact Or.inl (List.mem_cons_of_mem _ h)
      · rcases List.mem_cons.mp h with h1 | h1
        · exact Or.inl (h1 ▸ List.mem_cons_self _ _)
        · exact Or.inr h1

theorem rangeManifests_errs (name : String) :
    ∀ (ms : List Manifest) (ids : List resourceId) (errs : List Error) (e : Error),
      e ∈ errs → e ∈ (rangeManifests name ms ids errs).2 := by
  intro ms
  induction ms with
  | nil => intro ids errs e h; simpa [rangeManifests] using h
  | cons m rest ih =>
    intro ids errs e h
    simp only [rangeManifests, addIfNotDuplicateResource]
    by_cases hm : m.id ∈ ids
    · rw [if_pos hm]
      exact ih _ _ e (List.mem_append_left _ h)
    · rw [if_neg hm]
      exact ih _ _ e h

theorem rangeManifests_duplicate (name : String) :
    ∀ (ms : List Manifest) (ids : List resourceId) (errs : List Error) (m : Manifest),
      m ∈ ms → m.id ∈ ids →
      Error.wrap (.duplicate m.id) ("File " ++ name ++ " contains") ∈
        (rangeManifests name ms ids errs).2 := by
  intro ms
  induction ms with
  | nil => intro ids errs m h; simp at h
  | cons m0 rest ih =>
    intro ids errs m hm hid
    simp only [rangeManifests, addIfNotDuplicateResource]
    rcases List.mem_cons.mp hm with h1 | h1
    · subst h1
      rw [if_pos hid]
      exact rangeManifests_errs name rest _ _ _ (by simp)
    · by_cases hm0 : m0.id ∈ ids
      · rw [if_pos hm0]
        exact ih _ _ m h1 hid
      · rw [if_neg hm0]
        exact ih _ _ m h1 (List.mem_cons_of_mem _ hid)

/-- When every path opens the outer loop returns, and it keeps the errors and
the identities it started with. -/
theorem filesLoop_returns (codec : Codec) (fs : FileSystem) :
    ∀ (files : List String) (st : LoadState), (∀ f ∈ files, fs f ≠ none) →
      ∃ st', filesLoop codec fs files st = .ret st' ∧ (∀ e ∈ st.errs, e ∈ st'.errs) ∧
        (∀ x ∈ st.ids, x ∈ st'.ids) := by
  intro files
  induction files with
  | nil => intro st _; exact ⟨st, rfl, fun _ h => h, fun _ h => h⟩
  | cons f rest ih =>
    intro st hopen
    have hrest : ∀ g ∈ rest, fs g ≠ none := fun g hg => hopen g (List.mem_cons_of_mem f hg)
    cases hfs : fs f with
    | none => exact absurd hfs (hopen f (List.mem_cons_self f rest))
    | some content =>
      simp only [filesLoop, osOpen, hfs]
      rcases hpc : ParseManifests codec content with ⟨ms, _ | e⟩
      · simp only [File.Name, Outcome.bind]
        obtain ⟨st', h1, h2, h3⟩ := ih
          { manifests := st.manifests ++ ms, ids := (rangeManifests f ms st.ids st.errs).1,
            errs := (rangeManifests f ms st.ids st.errs).2 } hrest
        exact ⟨st', h1, fun e he => h2 e (rangeManifests_errs f ms _ _ e he),
          fun x hx => h3 x (rangeManifests_ids f ms _ _ x (Or.inl hx))⟩
      · simp only [File.Name, Outcome.bind]
        obtain ⟨st', h1, h2, h3⟩ := ih
          { st with errs := st.errs ++ [.wrap e ("error parsing " ++ f)] } hrest
        exact ⟨st', h1, fun x hx => h2 x (List.mem_append_left _ hx), h3⟩

theorem filesLoop_seen (codec : Codec) (fs : FileSystem) (fj : String)
    (cj : List Document) (mj : Manifest) (hfj : fs fj = some cj)
    (hpj : (ParseManifests codec cj).2 = none) (hmj : mj ∈ (ParseManifests codec cj).1) :
    ∀ (files : List String) (st : LoadState) (j : Nat), (∀ f ∈ files, fs f ≠ none) →
      files[j]? = some fj → mj.id ∈ st.ids →
      ∃ st', filesLoop codec fs files st = .ret st' ∧
        Error.wrap (.duplicate mj.id) ("File " ++ fj ++ " contains") ∈ st'.errs := by
  intro files
  induction files with
  | nil => intro st j _ hj; simp at hj
  | cons f rest ih =>
    intro st j hopen hj hid
    have hrest : ∀ g ∈ rest, fs g ≠ none := fun g hg => hopen g (List.mem_cons_of_mem f hg)
    cases j with
    | zero =>
      simp only [List.getElem?_cons_zero, Option.some.injEq] at hj
      subst hj
      rcases hpc : ParseManifests codec cj with ⟨ms, e⟩
      rw [hpc] at hpj hmj
      simp only at hpj hmj
      subst hpj
      simp only [filesLoop, osOpen, hfj, hpc, File.Name, Outcome.bind]
      obtain ⟨st', h1, h2, _⟩ := filesLoop_returns codec fs rest
        { manifests := st.manifests ++ ms, ids := (rangeManifests f ms st.ids st.errs).1,
          errs := (rangeManifests f ms st.ids st.errs).2 } hrest
      exact ⟨st', h1, h2 _ (rangeManifests_duplicate f ms st.ids st.errs mj hmj hid)⟩
    | succ k =>
      simp only [List.getElem?_cons_succ] at hj
      cases hfs : fs f with
      | none => exact absurd hfs (hopen f (List.mem_cons_self f rest))
      | some content =>
        simp only [filesLoop, osOpen, hfs]
        rcases hpc : ParseManifests codec content with ⟨ms, _ | e⟩
        · simp only [File.Name, Outcome.bind]
          exact ih _ k hrest hj (rangeManifests_ids f ms _ _ _ (Or.inl hid))
        · simp only [File.Name, Outcome.bind]
          exact ih _ k hrest hj hid

theorem filesLoop_duplicate (codec : Codec) (fs : FileSystem) (fi fj : String)
    (ci cj : List Document) (mi mj : Manifest)
    (hfi : fs fi = some ci) (hfj : fs fj = some cj)
    (hpi : (ParseManifests codec ci).2 = none) (hpj : (ParseManifests codec cj).2 = none)
    (hmi : mi ∈ (ParseManifests codec ci).1) (hmj : mj ∈ (ParseManifests codec cj).1)
    (hsame : mi.id = mj.id) :
    ∀ (files : List String) (st : LoadState) (i j : Nat), (∀ f ∈ files, fs f ≠ none) →
      i < j → files[i]? = some fi → files[j]? = some fj →
      ∃ st', filesLoop codec fs files st = .ret st' ∧
        Error.wrap (.duplicate mj.id) ("File " ++ fj ++ " contains") ∈ st'.errs := by
  intro files
  induction files with
  | nil => intro st i j _ _ hi; simp at hi
  | cons f rest ih =>
    intro st i j hopen hij hi hj
    have hrest : ∀ g ∈ rest, fs g ≠ none := fun g hg => hopen g (List.mem_cons_of_mem f hg)
    cases j with
    | zero => exact absurd hij (Nat.not_lt_zero i)
    | succ k =>
      simp only [List.getElem?_cons_succ] at hj
      cases i with
      | zero =>
        simp only [List.getElem?_cons_zero, Option.some.injEq] at hi
        subst hi
        rcases hpc : ParseManifests codec ci with ⟨ms, e⟩
        rw [hpc] at hpi hmi
        simp only at hpi hmi
        subst hpi
        simp only [filesLoop, osOpen, hfi, hpc, File.Name, Outcome.bind]
        refine filesLoop_seen codec fs fj cj mj hfj hpj hmj rest _ k hrest hj ?_
        exact rangeManifests_ids f ms _ _ _
          (Or.inr (List.mem_map.mpr ⟨mi, hmi, hsame⟩))
      | succ l =>
        simp only [List.getElem?_cons_succ] at hi
        cases hfs : fs f with
        | none => exact absurd hfs (hopen f (List.mem_cons_self f rest))
        | some content =>
          simp only [filesLoop, osOpen, hfs]
          rcases hpc : ParseManifests codec content with ⟨ms, _ | e⟩
          · simp only [File.Name, Outcome.bind]
            exact ih _ l k hrest (Nat.lt_of_succ_lt_succ hij) hi hj
          · simp only [File.Name, Outcome.bind]
            exact ih _ l k hrest (Nat.lt_of_succ_lt_succ hij) hi hj

/-- Duplicate detection across files, when every path opens: if two files at
different positions of the list parse without error and hold manifests of the
same identity, `ManifestsFromFiles` returns an error and no manifests, and a
duplicate-resource error for the manifest of the later file is among the
errors recorded. -/
theorem ManifestsFromFiles_duplicate_across_files (codec : Codec) (fs : FileSystem)
    (files : List String) (i j : Nat) (fi fj : String) (ci cj : List Document)
    (mi mj : Manifest)
    (hopen : ∀ f ∈ files, fs f ≠ none) (hij : i < j)
    (hi : files[i]? = some fi) (hj : files[j]? = some fj)
    (hfi : fs fi = some ci) (hfj : fs fj = some cj)
    (hpi : (ParseManifests codec ci).2 = none) (hpj : (ParseManifests codec cj).2 = none)
    (hmi : mi ∈ (ParseManifests codec ci).1) (hmj : mj ∈ (ParseManifests codec cj).1)
    (hsame : mi.id = mj.id) :
    ∃ errs, ManifestsFromFiles codec fs files = .ret ([], some errs) ∧
      Error.wrap (.duplicate mj.id) ("File " ++ fj ++ " contains") ∈ errs := by
  obtain ⟨st', hloop, herr⟩ := filesLoop_duplicate codec fs fi fj ci cj mi mj hfi hfj hpi hpj
    hmi hmj hsame files { manifests := [], ids := [], errs := [] } i j hopen hij hi hj
  refine ⟨st'.errs, ?_, herr⟩
  have hne : st'.errs ≠ [] := List.ne_nil_of_mem herr
  simp [ManifestsFromFiles, hloop, Outcome.bind, hne]

/-! ## Include -/

/-- With a manifest whose object has annotations, `Include` returns the first
error of its four blocks, in order. -/
theorem Include_eq (m : Manifest) (obj : Unstructured) (annotations : List (String × String))
    (hobj : m.Obj = some obj) (hann : obj.getAnnotations = some annotations)
    (e : Option String) (t : Option Bool) (p : Option String)
    (c : Option ClusterVersionCapabilitiesStatus) :
    m.Include e t p c = .ret none ↔
      excludeIdentifierBlock annotations e = none ∧
      includeTechPreviewBlock annotations t = none ∧
      profileBlock annotations p = none ∧
      ∀ caps, c = some caps → checkResourceEnablement annotations caps = none := by
  simp only [Manifest.Include, hobj, hann]
  cases h1 : excludeIdentifierBlock annotations e with
  | some err => simp
  | none =>
    cases h2 : includeTechPreviewBlock annotations t with
    | some err => simp
    | none =>
      cases h3 : profileBlock annotations p with
      | some err => simp
      | none =>
        cases c with
        | none => simp
        | some caps => simp

/-- C10: `Include` decomposes into independent criteria. For a manifest whose
annotation map is non-nil, `Include` returns no error exactly when, for each
argument that is non-nil, `Include` with that argument alone (the other three
nil) returns no error; with all four arguments nil it returns no error. -/
theorem Include_decomposes (m : Manifest) (obj : Unstructured)
    (annotations : List (String × String))
    (hobj : m.Obj = some obj) (hann : obj.getAnnotations = some annotations)
    (excludeIdentifier : Option String) (includeTechPreview : Option Bool)
    (profile : Option String) (capabilities : Option ClusterVersionCapabilitiesStatus) :
    (m.Include excludeIdentifier includeTechPreview profile capabilities = .ret none ↔
      (excludeIdentifier ≠ none → m.Include excludeIdentifier none none none = .ret none) ∧
      (includeTechPreview ≠ none → m.Include none includeTechPreview none none = .ret none) ∧
      (profile ≠ none → m.Include none none profile none = .ret none) ∧
      (capabilities ≠ none → m.Include none none none capabilities = .ret none)) ∧
    m.Include none none none none = .ret none := by
  have hnone : m.Include none none none none = .ret none := by
    rw [Include_eq m obj annotations hobj hann]
    simp [excludeIdentifierBlock, includeTechPreviewBlock, profileBlock]
  refine ⟨?_, hnone⟩
  rw [Include_eq m obj annotations hobj hann, Include_eq m obj annotations hobj hann,
    Include_eq m obj annotations hobj hann, Include_eq m obj annotations hobj hann,
    Include_eq m obj annotations hobj hann]
  cases excludeIdentifier <;> cases includeTechPreview <;> cases profile <;>
    cases capabilities <;>
    simp [excludeIdentifierBlock, includeTechPreviewBlock, profileBlock]

/-! ## Evaluations -/

/-- C1, evaluated: loading the single file `/manifests/c.yaml`, whose base name is
`c.yaml`, succeeds with one manifest, and that manifest has an empty
`OriginalFilename`: the assignment of source line 254 is made to the loop
variable, a copy of the element that is appended at line 260. -/
theorem ManifestsFromFiles_drops_filename :
    ManifestsFromFiles exampleCodec exampleFiles ["/manifests/c.yaml"] =
      .ret ([{ OriginalFilename := "",
               id := { Group := "", Kind := "Pod", Name := "c", Namespace := "default" },
               Raw := "pod-c-v1", GVK := ⟨"", "v1", "Pod"⟩,
               Obj := some (plainObject "" "v1" "Pod" "default" "c") }], none) ∧
    filepathBase "/manifests/c.yaml" = "c.yaml" := by decide

/-- C2, evaluated: with a first path that does not open, `ManifestsFromFiles`
ends in a fault: `os.Open` returns a nil file with the error, and source line
243 calls `file.Name()` on it. No error is recorded, the second file is not
attempted and nothing is returned. -/
theorem ManifestsFromFiles_unopenable_file :
    ManifestsFromFiles exampleCodec exampleFiles
      ["/manifests/missing.yaml", "/manifests/c.yaml"] = .crash := by decide

/-- C4, evaluated: the files `/manifests/a.yaml` and `/manifests/b.yaml` parse
without error and both hold the deployment `a`; loading the two returns no
manifests and one duplicate-resource error, for the manifest of the second
file; with a third path that does not open, `ManifestsFromFiles` ends in the
fault of source line 243 and returns nothing. -/
theorem ManifestsFromFiles_duplicate_then_unopenable :
    (parsedManifests exampleCodec exampleFiles "/manifests/a.yaml").map (fun m => m.id) =
      [⟨"apps", "Deployment", "a", "default"⟩, ⟨"", "Pod", "b", "default"⟩] ∧
    (parsedManifests exampleCodec exampleFiles "/manifests/b.yaml").map (fun m => m.id) =
      [⟨"apps", "Deployment", "a", "default"⟩] ∧
    ManifestsFromFiles exampleCodec exampleFiles ["/manifests/a.yaml", "/manifests/b.yaml"] =
      .ret ([], some [.wrap (.duplicate ⟨"apps", "Deployment", "a", "default"⟩)
        "File /manifests/b.yaml contains"]) ∧
    ManifestsFromFiles exampleCodec exampleFiles
      ["/manifests/a.yaml", "/manifests/b.yaml", "/manifests/missing.yaml"] = .crash := by
  decide

/-- C7, refuted as stated: in a stream of four valid documents, pod `b` twice and
then deployment `a` twice (in two API versions each), the two documents of the
deployment have the same identity and the one at position 2 is the first
occurrence of it, yet it is not in the returned list: `ParseManifests` stops at
the repeated pod and returns the first pod alone. -/
theorem later_duplicate_first_occurrence_absent :
    (∀ d ∈ exampleStream, validResource exampleCodec d = true) ∧
    exampleStream[2]? = some (.json "deployment-a-v1") ∧
    exampleStream[3]? = some (.json "deployment-a-v1beta1") ∧
    (docManifest exampleCodec (.json "deployment-a-v1")).id =
      (docManifest exampleCodec (.json "deployment-a-v1beta1")).id ∧
    (∀ d ∈ exampleStream.take 2,
      (docManifest exampleCodec d).id ≠ (docManifest exampleCodec (.json "deployment-a-v1")).id) ∧
    (ParseManifests exampleCodec exampleStream).2 =
      some (.duplicate ⟨"", "Pod", "b", "default"⟩) ∧
    (ParseManifests exampleCodec exampleStream).1 = [docManifest exampleCodec (.json "pod-b-v1")] ∧
    docManifest exampleCodec (.json "deployment-a-v1") ∉
      (ParseManifests exampleCodec exampleStream).1 := by
  decide

theorem filesLoop_filename (codec : Codec) (fs : FileSystem) :
    ∀ (files : List String) (st st' : LoadState),
      (∀ m ∈ st.manifests, m.OriginalFilename = "") →
      filesLoop codec fs files st = .ret st' →
      ∀ m ∈ st'.manifests, m.OriginalFilename = "" := by
  intro files
  induction files with
  | nil =>
    intro st st' hst h
    simp only [filesLoop, Outcome.ret.injEq] at h
    subst h
    exact hst
  | cons f rest ih =>
    intro st st' hst h
    cases hfs : fs f with
    | none => simp [filesLoop, osOpen, hfs, File.Name, Outcome.bind] at h
    | some content =>
      simp only [filesLoop, osOpen, hfs] at h
      rcases hpc : ParseManifests codec content with ⟨ms, _ | e⟩
      · rw [hpc] at h
        simp only [File.Name, Outcome.bind] at h
        refine ih _ st' ?_ h
        intro m hm
        rcases List.mem_append.mp hm with h1 | h1
        · exact hst m h1
        · have hms : m ∈ (ParseManifests codec content).1 := by rw [hpc]; exact h1
          obtain ⟨d, _, hv, hmd⟩ := ParseManifests_output codec content m hms
          obtain ⟨i, u, hd, hi, hc, _⟩ := (validResource_iff codec d).mp hv
          subst hd
          rw [hmd, docManifest_json codec i u hi hc]
      · rw [hpc] at h
        simp only [File.Name, Outcome.bind] at h
        refine ih _ st' ?_ h
        exact hst

/-- Every manifest that `ManifestsFromFiles` returns has an empty
`OriginalFilename`. -/
theorem ManifestsFromFiles_filename_unset (codec : Codec) (fs : FileSystem)
    (files : List String) (ms : List Manifest)
    (h : ManifestsFromFiles codec fs files = .ret (ms, none)) :
    ∀ m ∈ ms, m.OriginalFilename = "" := by
  unfold ManifestsFromFiles at h
  cases hl : filesLoop codec fs files { manifests := [], ids := [], errs := [] } with
  | crash => simp [hl, Outcome.bind] at h
  | ret st =>
    rw [hl] at h
    simp only [Outcome.bind] at h
    by_cases herr : st.errs ≠ []
    · simp [herr] at h
    · simp only [herr, if_false, Outcome.ret.injEq, Prod.mk.injEq, and_true] at h
      subst h
      exact filesLoop_filename codec fs files _ st (fun m hm => by simp at hm) hl

/-- The theorem `ManifestsFromFiles_concatenation` applied to two files of the example directory. -/
theorem ManifestsFromFiles_concatenation_witness :
    ∃ ms, ManifestsFromFiles exampleCodec exampleFiles
        ["/manifests/a.yaml", "/manifests/c.yaml"] = .ret (ms, none) ∧
      ms.map Manifest.payload =
        ((["/manifests/a.yaml", "/manifests/c.yaml"].map
          (parsedManifests exampleCodec exampleFiles)).flatten).map Manifest.payload :=
  ManifestsFromFiles_concatenation exampleCodec exampleFiles
    ["/manifests/a.yaml", "/manifests/c.yaml"]
    (by
      intro f hf
      simp only [List.mem_cons, List.mem_singleton, List.not_mem_nil, or_false] at hf
      rcases hf with rfl | rfl
      · exact ⟨_, rfl⟩
      · exact ⟨_, rfl⟩)
    (by
      intro f hf content hc
      simp only [List.mem_cons, List.mem_singleton, List.not_mem_nil, or_false] at hf
      rcases hf with rfl | rfl
      · have : content = [.json "deployment-a-v1", .json "null", .json "pod-b-v1"] :=
          (Option.some.inj hc).symm
        subst this
        decide
      · have : content = [.json "pod-c-v1"] := (Option.some.inj hc).symm
        subst this
        decide)
    (by decide)

/-- The theorem `ParseManifests_valid_distinct` applied to a stream of two documents. -/
theorem ParseManifests_valid_distinct_witness :
    (ParseManifests exampleCodec [.json "deployment-a-v1", .json "pod-b-v1"]).2 = none ∧
    (ParseManifests exampleCodec [.json "deployment-a-v1", .json "pod-b-v1"]).1.length = 2 :=
  have h := ParseManifests_valid_distinct exampleCodec [.json "deployment-a-v1", .json "pod-b-v1"]
    (by
      intro d hd
      simp only [List.mem_cons, List.mem_singleton, List.not_mem_nil, or_false] at hd
      rcases hd with rfl | rfl
      · exact (validResource_iff exampleCodec _).mp (by decide)
      · exact (validResource_iff exampleCodec _).mp (by decide))
    (by decide)
  ⟨h.1, h.2.1⟩

/-- The theorem `null_documents_transparent` applied to a null document and a document without bytes put between two resources. -/
theorem null_documents_transparent_witness :
    (∀ d ∈ [Document.json "null", Document.nothing], nullOrEmpty exampleCodec d = true) ∧
    ParseManifests exampleCodec
        ([.json "deployment-a-v1"] ++ [.json "null", .nothing] ++ [.json "pod-b-v1"]) =
      ParseManifests exampleCodec ([.json "deployment-a-v1"] ++ [.json "pod-b-v1"]) :=
  ⟨by decide,
    (null_documents_transparent exampleCodec [.json "deployment-a-v1"] [.json "null", .nothing]
      [.json "pod-b-v1"] (by decide)).1⟩

/-- The theorem `ParseManifests_duplicate` applied to the example stream and the two documents of the deployment. -/
theorem ParseManifests_duplicate_witness :
    ∃ pre first second post, exampleStream = pre ++ second :: post ∧ first ∈ pre ∧
      (docManifest exampleCodec first).id = (docManifest exampleCodec second).id ∧
      (pre.map (fun d => (docManifest exampleCodec d).id)).Nodup ∧
      ParseManifests exampleCodec exampleStream =
        (pre.map (docManifest exampleCodec),
          some (.duplicate (docManifest exampleCodec second).id)) ∧
      docManifest exampleCodec first ∈ (ParseManifests exampleCodec exampleStream).1 ∧
      (ParseManifests exampleCodec exampleStream).1.length = pre.length ∧ pre.length ≤ 3 :=
  ParseManifests_duplicate exampleCodec exampleStream 2 3 (.json "deployment-a-v1")
    (.json "deployment-a-v1beta1") (by decide) (by decide) (by decide) (by decide) (by decide)

/-- The theorem `ParseManifests_stops_at_failure` applied to a stream that fails validation at its second document. -/
theorem ParseManifests_stops_at_failure_witness :
    (ParseManifests exampleCodec [.json "deployment-a-v1"]).2 = none ∧
    (ParseManifests exampleCodec ([.json "deployment-a-v1"] ++ [.json "nokind"])).2 =
      some (.wrap (.requiredFields ⟨"", "", "d", "default"⟩) "error parsing") ∧
    ParseManifests exampleCodec ([.json "deployment-a-v1"] ++ .json "nokind" :: [.json "pod-b-v1"]) =
      ((ParseManifests exampleCodec [.json "deployment-a-v1"]).1,
        some (.wrap (.requiredFields ⟨"", "", "d", "default"⟩) "error parsing")) :=
  ⟨by decide, by decide,
    ParseManifests_stops_at_failure exampleCodec [.json "deployment-a-v1"] [.json "pod-b-v1"]
      (.json "nokind") _ (by decide) (by decide)⟩

/-- The theorem `resource_without_kind_or_name_rejected` applied to a document that decodes to an object without kind. -/
theorem resource_without_kind_or_name_rejected_witness :
    "nokind" ≠ "null" ∧
    exampleCodec "nokind" = .object (plainObject "" "v1" "" "default" "d") ∧
    (Manifest.UnmarshalJSON exampleCodec Manifest.zero "nokind").2 ≠ none :=
  ⟨by decide, by decide,
    (resource_without_kind_or_name_rejected exampleCodec Manifest.zero "nokind"
      (plainObject "" "v1" "" "default" "d") [.json "deployment-a-v1", .json "nokind"]
      (by decide) (by decide)).2.2.1.mpr (Or.inl rfl)⟩

/-- The theorem `Include_decomposes` applied to the example manifest. -/
theorem Include_decomposes_witness :
    (exampleManifest.Include (some "internal") (some false) (some DefaultClusterProfile) none =
        .ret none ↔
      ((some "internal" : Option String) ≠ none →
        exampleManifest.Include (some "internal") none none none = .ret none) ∧
      ((some false : Option Bool) ≠ none →
        exampleManifest.Include none (some false) none none = .ret none) ∧
      ((some DefaultClusterProfile : Option String) ≠ none →
        exampleManifest.Include none none (some DefaultClusterProfile) none = .ret none) ∧
      ((none : Option ClusterVersionCapabilitiesStatus) ≠ none →
        exampleManifest.Include none none none none = .ret none)) ∧
    exampleManifest.Include none none none none = .ret none :=
  Include_decomposes exampleManifest _ _ rfl rfl (some "internal") (some false)
    (some DefaultClusterProfile) none

/-! ## The criteria of Include -/

theorem index_none (annotations : List (String × String)) (key : String)
    (h : annotations.lookup key = none) : index annotations key = ("", false) := by
  simp [index, h]

theorem index_some (annotations : List (String × String)) (key v : String)
    (h : annotations.lookup key = some v) : index annotations key = (v, true) := by
  simp [index, h]

/-- With a manifest whose object has annotations, `Include` with the profile
alone returns what the profile block returns. -/
theorem Include_profile_only (m : Manifest) (obj : Unstructured)
    (annotations : List (String × String))
    (hobj : m.Obj = some obj) (hann : obj.getAnnotations = some annotations)
    (p : Option String) :
    m.Include none none p none = .ret (profileBlock annotations p) := by
  simp only [Manifest.Include, hobj, hann, excludeIdentifierBlock, includeTechPreviewBlock]
  cases profileBlock annotations p <;> rfl

theorem Include_exclude_only (m : Manifest) (obj : Unstructured)
    (annotations : List (String × String))
    (hobj : m.Obj = some obj) (hann : obj.getAnnotations = some annotations)
    (e : Option String) :
    m.Include e none none none = .ret (excludeIdentifierBlock annotations e) := by
  simp only [Manifest.Include, hobj, hann, profileBlock, includeTechPreviewBlock]
  cases excludeIdentifierBlock annotations e <;> rfl

theorem Include_techPreview_only (m : Manifest) (obj : Unstructured)
    (annotations : List (String × String))
    (hobj : m.Obj = some obj) (hann : obj.getAnnotations = some annotations)
    (t : Option Bool) :
    m.Include none t none none = .ret (includeTechPreviewBlock annotations t) := by
  simp only [Manifest.Include, hobj, hann, profileBlock, excludeIdentifierBlock]
  cases includeTechPreviewBlock annotations t <;> rfl

/-- C11: for a manifest whose object has a nil annotation map, `Include` returns
the error `no annotations` for every combination of its four arguments, the
combination of four nil arguments included. -/
theorem Include_no_annotations (m : Manifest) (obj : Unstructured)
    (hobj : m.Obj = some obj) (hann : obj.getAnnotations = none)
    (excludeIdentifier : Option String) (includeTechPreview : Option Bool)
    (profile : Option String) (capabilities : Option ClusterVersionCapabilitiesStatus) :
    m.Include excludeIdentifier includeTechPreview profile capabilities =
        .ret (some (.text "no annotations")) ∧
    m.Include none none none none = .ret (some (.text "no annotations")) := by
  simp [Manifest.Include, hobj, hann]

/-- C13: cluster-profile matching is opt-in. With a non-nil annotation map and
only the profile `p` set, `Include` returns no error exactly when the
annotation `include.release.openshift.io/<p>` is present with the value
`true`; when the annotation is absent the error is the `unset` error, and when
it is present with any other value the error is the unrecognized-value error. -/
theorem Include_profile (m : Manifest) (obj : Unstructured)
    (annotations : List (String × String))
    (hobj : m.Obj = some obj) (hann : obj.getAnnotations = some annotations)
    (p : String) :
    (m.Include none none (some p) none = .ret none ↔
      annotations.lookup ("include.release.openshift.io/" ++ p) = some "true") ∧
    (annotations.lookup ("include.release.openshift.io/" ++ p) = none →
      m.Include none none (some p) none =
        .ret (some (.text ("include.release.openshift.io/" ++ p ++ " unset")))) ∧
    (∀ v, annotations.lookup ("include.release.openshift.io/" ++ p) = some v → v ≠ "true" →
      m.Include none none (some p) none =
        .ret (some (.text ("unrecognized value " ++ ("include.release.openshift.io/" ++ p) ++
          "=" ++ v)))) := by
  rw [Include_profile_only m obj annotations hobj hann]
  cases h : annotations.lookup ("include.release.openshift.io/" ++ p) with
  | none => simp [profileBlock, index_none _ _ h]
  | some v =>
    by_cases hv : v = "true"
    · simp [profileBlock, index_some _ _ _ h, hv]
    · simp [profileBlock, index_some _ _ _ h, hv]

/-- C15: exclude-by-identifier. With a non-nil annotation map and only the
identifier `id` set, `Include` returns an error exactly when the annotation
`exclude.release.openshift.io/<id>` has the value `true`; when the annotation
is absent or has another value, `Include` returns no error. -/
theorem Include_exclude (m : Manifest) (obj : Unstructured)
    (annotations : List (String × String))
    (hobj : m.Obj = some obj) (hann : obj.getAnnotations = some annotations)
    (id : String) :
    ((∃ err, m.Include (some id) none none none = .ret (some err)) ↔
      annotations.lookup ("exclude.release.openshift.io/" ++ id) = some "true") ∧
    (annotations.lookup ("exclude.release.openshift.io/" ++ id) = none →
      m.Include (some id) none none none = .ret none) ∧
    (∀ v, annotations.lookup ("exclude.release.openshift.io/" ++ id) = some v → v ≠ "true" →
      m.Include (some id) none none none = .ret none) := by
  rw [Include_exclude_only m obj annotations hobj hann]
  cases h : annotations.lookup ("exclude.release.openshift.io/" ++ id) with
  | none => simp [excludeIdentifierBlock, index_none _ _ h]
  | some v =>
    by_cases hv : v = "true"
    · simp [excludeIdentifierBlock, index_some _ _ _ h, hv]
    · simp [excludeIdentifierBlock, index_some _ _ _ h, hv]

/-- C14: tech-preview gating. With a non-nil annotation map and only
`includeTechPreview` set: (1) when the annotation
`release.openshift.io/feature-gate` is the marker `TechPreviewNoUpgrade` and
the flag is false, `Include` returns an error; (2) when the annotation is
present with any other non-empty value, `Include` returns an error whatever
the flag; (3) when the annotation is the marker and the flag is true,
`Include` returns no error. -/
theorem Include_techPreview (m : Manifest) (obj : Unstructured)
    (annotations : List (String × String))
    (hobj : m.Obj = some obj) (hann : obj.getAnnotations = some annotations) :
    (annotations.lookup "release.openshift.io/feature-gate" = some TechPreviewNoUpgrade →
      ∃ err, m.Include none (some false) none none = .ret (some err)) ∧
    (∀ (v : String) (flag : Bool),
      annotations.lookup "release.openshift.io/feature-gate" = some v →
      v ≠ TechPreviewNoUpgrade → v ≠ "" →
      ∃ err, m.Include none (some flag) none none = .ret (some err)) ∧
    (annotations.lookup "release.openshift.io/feature-gate" = some TechPreviewNoUpgrade →
      m.Include none (some true) none none = .ret none) := by
  refine ⟨?_, ?_, ?_⟩
  · intro h
    rw [Include_techPreview_only m obj annotations hobj hann]
    simp [includeTechPreviewBlock, index_some _ _ _ h]
  · intro v flag h hv _
    rw [Include_techPreview_only m obj annotations hobj hann]
    simp [includeTechPreviewBlock, index_some _ _ _ h, hv]
  · intro h
    rw [Include_techPreview_only m obj annotations hobj hann]
    simp [includeTechPreviewBlock, index_some _ _ _ h]

/-- C19: the tech-preview criterion, exactly. With a non-nil annotation map and
only `includeTechPreview` set to `flag`, `Include` returns an error exactly
when the key `release.openshift.io/feature-gate` is present and its value
differs from `TechPreviewNoUpgrade` or the flag is false; so an annotation
present with the empty string as value is excluded, and an absent annotation
is never excluded. -/
theorem Include_techPreview_exact (m : Manifest) (obj : Unstructured)
    (annotations : List (String × String))
    (hobj : m.Obj = some obj) (hann : obj.getAnnotations = some annotations)
    (flag : Bool) :
    ((∃ err, m.Include none (some flag) none none = .ret (some err)) ↔
      ∃ v, annotations.lookup "release.openshift.io/feature-gate" = some v ∧
        (v ≠ TechPreviewNoUpgrade ∨ flag = false)) ∧
    (annotations.lookup "release.openshift.io/feature-gate" = some "" →
      ∃ err, m.Include none (some flag) none none = .ret (some err)) ∧
    (annotations.lookup "release.openshift.io/feature-gate" = none →
      m.Include none (some flag) none none = .ret none) := by
  rw [Include_techPreview_only m obj annotations hobj hann]
  have hmarker : ("" : String) ≠ TechPreviewNoUpgrade := by decide
  have hmarker' : ¬ TechPreviewNoUpgrade = "" := fun h => hmarker h.symm
  cases h : annotations.lookup "release.openshift.io/feature-gate" with
  | none =>
    simp [includeTechPreviewBlock, index_none _ _ h, hmarker]
  | some v =>
    by_cases hv : v = TechPreviewNoUpgrade
    · cases flag <;> simp [includeTechPreviewBlock, index_some _ _ _ h, hv, hmarker, hmarker']
    · cases flag <;> simp [includeTechPreviewBlock, index_some _ _ _ h, hv, hmarker, hmarker']

theorem index_congr (a1 a2 : List (String × String)) (key : String)
    (h : a1.lookup key = a2.lookup key) : index a1 key = index a2 key := by
  simp [index, h]

/-- A key made of a prefix that starts with another letter than `c` is not the
capability key. -/
theorem key_ne_capability (pre rest : String) (c : Char) (cs : List Char)
    (hpre : pre.data = c :: cs) (hc : c ≠ 'c') : pre ++ rest ≠ CapabilityAnnotation := by
  intro h
  have h1 := congrArg String.data h
  rw [String.data_append, hpre] at h1
  have h2 : (c :: cs ++ rest.data).head? = CapabilityAnnotation.data.head? := by rw [h1]
  have h3 : CapabilityAnnotation.data.head? = some 'c' := by decide
  rw [h3] at h2
  simp only [List.cons_append, List.head?_cons, Option.some.injEq] at h2
  exact hc h2

/-- C12: with `capabilities` nil, `Include` does not read the capability
annotation. For two manifests whose non-nil annotation maps agree on every key
other than `capability.openshift.io/name`, and every `excludeIdentifier`,
`includeTechPreview` and `profile`, `Include` returns the same result on both. -/
theorem Include_ignores_capability_annotation (m1 m2 : Manifest) (obj1 obj2 : Unstructured)
    (a1 a2 : List (String × String))
    (hobj1 : m1.Obj = some obj1) (hann1 : obj1.getAnnotations = some a1)
    (hobj2 : m2.Obj = some obj2) (hann2 : obj2.getAnnotations = some a2)
    (hsame : ∀ key, key ≠ CapabilityAnnotation → a1.lookup key = a2.lookup key)
    (excludeIdentifier : Option String) (includeTechPreview : Option Bool)
    (profile : Option String) :
    m1.Include excludeIdentifier includeTechPreview profile none =
      m2.Include excludeIdentifier includeTechPreview profile none := by
  have he : excludeIdentifierBlock a1 excludeIdentifier =
      excludeIdentifierBlock a2 excludeIdentifier := by
    cases excludeIdentifier with
    | none => rfl
    | some id =>
      simp only [excludeIdentifierBlock]
      rw [index_congr a1 a2 _ (hsame _ (key_ne_capability "exclude.release.openshift.io/" id
        'e' _ rfl (by decide)))]
  have ht : includeTechPreviewBlock a1 includeTechPreview =
      includeTechPreviewBlock a2 includeTechPreview := by
    cases includeTechPreview with
    | none => rfl
    | some flag =>
      simp only [includeTechPreviewBlock]
      rw [index_congr a1 a2 _ (hsame "release.openshift.io/feature-gate" (by decide))]
  have hp : profileBlock a1 profile = profileBlock a2 profile := by
    cases profile with
    | none => rfl
    | some p =>
      simp only [profileBlock]
      rw [index_congr a1 a2 _ (hsame _ (key_ne_capability "include.release.openshift.io/" p
        'i' _ rfl (by decide)))]
  simp only [Manifest.Include, hobj1, hann1, hobj2, hann2, he, ht, hp]

/-! ## Lemmas on capabilities -/

theorem rangeFlag_foldl (c : String) :
    ∀ (xs : List String) (flag : Bool),
      xs.foldl (fun flag x => if c = x then true else flag) flag = (flag || decide (c ∈ xs)) := by
  intro xs
  induction xs with
  | nil => intro flag; simp
  | cons x rest ih =>
    intro flag
    rw [List.foldl_cons, ih]
    by_cases hx : c = x
    · simp [hx]
    · simp [hx]

theorem rangeFlag_eq (c : String) (xs : List String) : rangeFlag c xs = decide (c ∈ xs) := by
  unfold rangeFlag
  rw [rangeFlag_foldl]
  simp

/-- The two lists the loop of `checkResourceEnablement` builds: the named
capabilities that are not known, and those that are known and not enabled, each
in the order of the names. -/
theorem rangeCaps_eq (capabilities : ClusterVersionCapabilitiesStatus) :
    ∀ (caps unknownCaps disabledCaps : List String),
      rangeCaps capabilities caps unknownCaps disabledCaps =
        (unknownCaps ++ caps.filter (fun c => decide (c ∉ capabilities.KnownCapabilities)),
          disabledCaps ++ caps.filter (fun c =>
            decide (c ∈ capabilities.KnownCapabilities ∧
              c ∉ capabilities.EnabledCapabilities))) := by
  intro caps
  induction caps with
  | nil => intro u d; simp [rangeCaps]
  | cons c rest ih =>
    intro u d
    simp only [rangeCaps, rangeFlag_eq]
    by_cases hk : c ∈ capabilities.KnownCapabilities
    · by_cases he : c ∈ capabilities.EnabledCapabilities
      · simp [hk, he, ih]
      · simp [hk, he, ih]
    · simp [hk, ih]

theorem checkResourceEnablement_eq (annotations : List (String × String))
    (capabilities : ClusterVersionCapabilitiesStatus) :
    checkResourceEnablement annotations capabilities =
      if ((getManifestCapabilities annotations).filter
          (fun c => decide (c ∉ capabilities.KnownCapabilities))).length > 0 then
        some (.text ("unrecognized capability names: " ++ ", ".intercalate
          ((getManifestCapabilities annotations).filter
            (fun c => decide (c ∉ capabilities.KnownCapabilities)))))
      else if ((getManifestCapabilities annotations).filter
          (fun c => decide (c ∈ capabilities.KnownCapabilities ∧
            c ∉ capabilities.EnabledCapabilities))).length > 0 then
        some (.text ("disabled capabilities: " ++ ", ".intercalate
          ((getManifestCapabilities annotations).filter
            (fun c => decide (c ∈ capabilities.KnownCapabilities ∧
              c ∉ capabilities.EnabledCapabilities)))))
      else none := by
  simp only [checkResourceEnablement, rangeCaps_eq, List.nil_append]

theorem filter_length_pos {α : Type} (p : α → Bool) (l : List α) :
    (l.filter p).length > 0 ↔ ∃ x ∈ l, p x = true := by
  show 0 < (l.filter p).length ↔ _
  rw [List.length_pos_iff_exists_mem]
  simp [List.mem_filter]

/-- C16: in `checkResourceEnablement` unknown capabilities take precedence over
disabled ones. If a capability named in the capability annotation is not in
`KnownCapabilities`, the error is the `unrecognized capability names` error and
it lists exactly the named capabilities that are not known, in the order of
the annotation; otherwise, if a named capability is not in
`EnabledCapabilities`, the error is the `disabled capabilities` error and it
lists exactly the named capabilities that are known and not enabled, in the
order of the annotation. -/
theorem checkResourceEnablement_precedence (annotations : List (String × String))
    (capabilities : ClusterVersionCapabilitiesStatus) :
    ((∃ c ∈ getManifestCapabilities annotations, c ∉ capabilities.KnownCapabilities) →
      checkResourceEnablement annotations capabilities =
        some (.text ("unrecognized capability names: " ++ ", ".intercalate
          ((getManifestCapabilities annotations).filter
            (fun c => decide (c ∉ capabilities.KnownCapabilities)))))) ∧
    ((∀ c ∈ getManifestCapabilities annotations, c ∈ capabilities.KnownCapabilities) →
      (∃ c ∈ getManifestCapabilities annotations, c ∉ capabilities.EnabledCapabilities) →
      checkResourceEnablement annotations capabilities =
        some (.text ("disabled capabilities: " ++ ", ".intercalate
          ((getManifestCapabilities annotations).filter
            (fun c => decide (c ∈ capabilities.KnownCapabilities ∧
              c ∉ capabilities.EnabledCapabilities)))))) := by
  constructor
  · intro h
    rw [checkResourceEnablement_eq, if_pos]
    rw [filter_length_pos]
    obtain ⟨c, hc, hk⟩ := h
    exact ⟨c, hc, by simpa using hk⟩
  · intro hknown h
    rw [checkResourceEnablement_eq, if_neg, if_pos]
    · rw [filter_length_pos]
      obtain ⟨c, hc, he⟩ := h
      exact ⟨c, hc, by simpa using ⟨hknown c hc, he⟩⟩
    · rw [filter_length_pos]
      rintro ⟨c, hc, hk⟩
      simp only [decide_eq_true_eq] at hk
      exact hk (hknown c hc)

/-- `checkResourceEnablement` returns no error exactly when every named
capability is known and enabled. -/
theorem checkResourceEnablement_none_iff (annotations : List (String × String))
    (capabilities : ClusterVersionCapabilitiesStatus) :
    checkResourceEnablement annotations capabilities = none ↔
      ∀ c ∈ getManifestCapabilities annotations,
        c ∈ capabilities.KnownCapabilities ∧ c ∈ capabilities.EnabledCapabilities := by
  rw [checkResourceEnablement_eq]
  constructor
  · intro h c hc
    by_cases hk : c ∈ capabilities.KnownCapabilities
    · by_cases he : c ∈ capabilities.EnabledCapabilities
      · exact ⟨hk, he⟩
      · exfalso
        have h2 : ((getManifestCapabilities annotations).filter (fun c => decide
            (c ∈ capabilities.KnownCapabilities ∧ c ∉ capabilities.EnabledCapabilities))).length
            > 0 := (filter_length_pos _ _).mpr ⟨c, hc, by simpa using ⟨hk, he⟩⟩
        split_ifs at h
    · exfalso
      have h1 : ((getManifestCapabilities annotations).filter (fun c => decide
          (c ∉ capabilities.KnownCapabilities))).length > 0 :=
        (filter_length_pos _ _).mpr ⟨c, hc, by simpa using hk⟩
      rw [if_pos h1] at h
      exact Option.noConfusion h
  · intro h
    rw [if_neg, if_neg]
    · rw [filter_length_pos]
      rintro ⟨c, hc, hk⟩
      simp only [decide_eq_true_eq] at hk
      exact hk.2 (h c hc).2
    · rw [filter_length_pos]
      rintro ⟨c, hc, hk⟩
      simp only [decide_eq_true_eq] at hk
      exact hk (h c hc).1

theorem splitChars_ne_nil (sep : Char) : ∀ l : List Char, splitChars sep l ≠ [] := by
  intro l
  cases l with
  | nil => simp [splitChars]
  | cons c cs =>
    simp only [splitChars]
    split_ifs
    · simp
    · cases splitChars sep cs <;> simp

theorem splitChars_length (sep : Char) :
    ∀ l : List Char, (splitChars sep l).length = l.count sep + 1 := by
  intro l
  induction l with
  | nil => simp [splitChars]
  | cons c cs ih =>
    simp only [splitChars]
    by_cases hc : c = sep
    · subst hc
      simp [ih]
    · rw [if_neg hc]
      have hne : (c == sep) = false := by simpa using hc
      rw [List.count_cons, hne]
      cases hs : splitChars sep cs with
      | nil => exact absurd hs (splitChars_ne_nil sep cs)
      | cons w ws =>
        rw [hs] at ih
        simpa using ih

theorem splitChars_not_mem (sep : Char) :
    ∀ l : List Char, ∀ w ∈ splitChars sep l, sep ∉ w := by
  intro l
  induction l with
  | nil => intro w hw; simp [splitChars] at hw; simp [hw]
  | cons c cs ih =>
    intro w hw
    simp only [splitChars] at hw
    by_cases hc : c = sep
    · rw [if_pos hc] at hw
      rcases List.mem_cons.mp hw with h | h
      · simp [h]
      · exact ih w h
    · rw [if_neg hc] at hw
      cases hs : splitChars sep cs with
      | nil => exact absurd hs (splitChars_ne_nil sep cs)
      | cons x xs =>
        rw [hs] at hw ih
        rcases List.mem_cons.mp hw with h | h
        · subst h
          intro hmem
          rcases List.mem_cons.mp hmem with h1 | h1
          · exact hc h1.symm
          · exact ih x (List.mem_cons_self x xs) h1
        · exact ih w (List.mem_cons_of_mem x h)

/-- The pieces after an occurrence of the separator are pieces of the whole. -/
theorem splitChars_append (sep : Char) (post : List Char) :
    ∀ pre : List Char, ∃ front, front ≠ [] ∧
      splitChars sep (pre ++ sep :: post) = front ++ splitChars sep post := by
  intro pre
  induction pre with
  | nil => exact ⟨[[]], by simp, by simp [splitChars]⟩
  | cons c cs ih =>
    obtain ⟨front, hne, hfront⟩ := ih
    by_cases hc : c = sep
    · refine ⟨[] :: front, by simp, ?_⟩
      simp only [List.cons_append, splitChars, if_pos hc, List.append_eq, hfront]
    · cases front with
      | nil => exact absurd rfl hne
      | cons w ws =>
        refine ⟨(c :: w) :: ws, by simp, ?_⟩
        simp only [List.cons_append, splitChars, if_neg hc, List.append_eq, hfront]

theorem intercalate_go_data (s : String) :
    ∀ (as : List String) (acc : String),
      (String.intercalate.go acc s as).data =
        acc.data ++ (as.map (fun a => s.data ++ a.data)).flatten := by
  intro as
  induction as with
  | nil => intro acc; simp [String.intercalate.go]
  | cons a rest ih =>
    intro acc
    simp only [String.intercalate.go, ih, String.data_append, List.map_cons, List.flatten_cons,
      List.append_assoc]

/-- Joining the pieces with the separator gives the list back. -/
theorem intercalate_splitChars (sep : Char) :
    ∀ l : List Char,
      ((String.singleton sep).intercalate ((splitChars sep l).map String.mk)).data = l := by
  intro l
  induction l with
  | nil => simp [splitChars, String.intercalate, String.intercalate.go]
  | cons c cs ih =>
    cases hs : splitChars sep cs with
    | nil => exact absurd hs (splitChars_ne_nil sep cs)
    | cons w ws =>
      rw [hs] at ih
      simp only [List.map_cons, String.intercalate, intercalate_go_data] at ih
      by_cases hc : c = sep
      · simp only [splitChars, if_pos hc, hs, List.map_cons, String.intercalate,
          String.intercalate.go, intercalate_go_data, String.data_append]
        subst hc
        simp only [String.singleton, String.data_push] at ih ⊢
        simpa using ih
      · simp only [splitChars, if_neg hc, hs, List.map_cons, String.intercalate,
          intercalate_go_data]
        simpa using ih

theorem getManifestCapabilities_absent (annotations : List (String × String))
    (h : annotations.lookup CapabilityAnnotation = none) :
    getManifestCapabilities annotations = [] := by
  simp [getManifestCapabilities, index_none _ _ h]

theorem getManifestCapabilities_empty (annotations : List (String × String))
    (h : annotations.lookup CapabilityAnnotation = some "") :
    getManifestCapabilities annotations = [] := by
  simp [getManifestCapabilities, index_some _ _ _ h]

theorem getManifestCapabilities_value (annotations : List (String × String)) (v : String)
    (h : annotations.lookup CapabilityAnnotation = some v) (hv : v ≠ "") :
    getManifestCapabilities annotations = stringsSplitPlus v := by
  simp [getManifestCapabilities, index_some _ _ _ h, hv]

/-- C17: `getManifestCapabilities` decodes the capability annotation. It returns
nil when the annotation `capability.openshift.io/name` is absent or is the
empty string; for a non-empty value `v` it returns a list of as many names as
`v` has `+` characters, plus one, none of which contains `+`, and joining the
names with `+` gives `v` back. -/
theorem getManifestCapabilities_split (annotations : List (String × String)) :
    (annotations.lookup CapabilityAnnotation = none →
      getManifestCapabilities annotations = []) ∧
    (annotations.lookup CapabilityAnnotation = some "" →
      getManifestCapabilities annotations = []) ∧
    (∀ v, annotations.lookup CapabilityAnnotation = some v → v ≠ "" →
      (getManifestCapabilities annotations).length = v.data.count '+' + 1 ∧
      (∀ c ∈ getManifestCapabilities annotations, '+' ∉ c.data) ∧
      "+".intercalate (getManifestCapabilities annotations) = v) := by
  refine ⟨getManifestCapabilities_absent annotations, getManifestCapabilities_empty annotations,
    ?_⟩
  intro v h hv
  rw [getManifestCapabilities_value annotations v h hv]
  refine ⟨?_, ?_, ?_⟩
  · simp [stringsSplitPlus, splitChars_length]
  · intro c hc
    simp only [stringsSplitPlus, List.mem_map] at hc
    obtain ⟨w, hw, hcw⟩ := hc
    rw [← hcw]
    exact splitChars_not_mem '+' v.data w hw
  · apply String.ext
    exact intercalate_splitChars '+' v.data

/-- A value with a leading, trailing or doubled separator has an empty piece. -/
theorem splitChars_empty_piece (sep : Char) (l : List Char)
    (h : (∃ rest, l = sep :: rest) ∨ (∃ pre, l = pre ++ [sep]) ∨
      (∃ pre post, l = pre ++ sep :: sep :: post)) :
    [] ∈ splitChars sep l := by
  rcases h with ⟨rest, h⟩ | ⟨pre, h⟩ | ⟨pre, post, h⟩
  · subst h
    simp [splitChars]
  · subst h
    obtain ⟨front, _, hfront⟩ := splitChars_append sep [] pre
    rw [hfront]
    simp [splitChars]
  · subst h
    obtain ⟨front, _, hfront⟩ := splitChars_append sep (sep :: post) pre
    rw [hfront]
    simp [splitChars]

/-- C18, refuted as stated: the value `Storage+` has a trailing `+` and names
the capabilities `Storage` and the empty name; with a status that lists the
empty name among the known and the enabled capabilities,
`checkResourceEnablement` returns no error. -/
theorem empty_capability_name_accepted :
    getManifestCapabilities [( CapabilityAnnotation, "Storage+")] = ["Storage", ""] ∧
    checkResourceEnablement [( CapabilityAnnotation, "Storage+")]
      { EnabledCapabilities := ["Storage", ""], KnownCapabilities := ["Storage", ""] } = none := by
  decide

/-- C18, as amended: `checkResourceEnablement` returns no error exactly when
every capability named in the capability annotation is in both
`KnownCapabilities` and `EnabledCapabilities`. It returns no error when the
annotation is absent or empty; it returns an error for a named capability that
is enabled and not known; a value with a leading, trailing or doubled `+` names
the empty capability, for which it returns an error unless the empty name is
itself in both `KnownCapabilities` and `EnabledCapabilities`. -/
theorem checkResourceEnablement_exact (annotations : List (String × String))
    (capabilities : ClusterVersionCapabilitiesStatus) :
    (checkResourceEnablement annotations capabilities = none ↔
      ∀ c ∈ getManifestCapabilities annotations,
        c ∈ capabilities.KnownCapabilities ∧ c ∈ capabilities.EnabledCapabilities) ∧
    (annotations.lookup CapabilityAnnotation = none ∨
        annotations.lookup CapabilityAnnotation = some "" →
      checkResourceEnablement annotations capabilities = none) ∧
    (∀ c ∈ getManifestCapabilities annotations, c ∈ capabilities.EnabledCapabilities →
      c ∉ capabilities.KnownCapabilities →
      checkResourceEnablement annotations capabilities ≠ none) ∧
    (∀ v, annotations.lookup CapabilityAnnotation = some v → v ≠ "" →
      ((∃ rest, v.data = '+' :: rest) ∨ (∃ pre, v.data = pre ++ ['+']) ∨
        (∃ pre post, v.data = pre ++ '+' :: '+' :: post)) →
      "" ∈ getManifestCapabilities annotations ∧
      ("" ∉ capabilities.KnownCapabilities ∨ "" ∉ capabilities.EnabledCapabilities →
        checkResourceEnablement annotations capabilities ≠ none)) := by
  have hiff := checkResourceEnablement_none_iff annotations capabilities
  refine ⟨hiff, ?_, ?_, ?_⟩
  · intro h
    rw [hiff]
    rcases h with h | h
    · rw [getManifestCapabilities_absent annotations h]
      intro c hc
      simp at hc
    · rw [getManifestCapabilities_empty annotations h]
      intro c hc
      simp at hc
  · intro c hc _ hk hnone
    exact hk ((hiff.mp hnone) c hc).1
  · intro v h hv hplus
    have hmem : "" ∈ getManifestCapabilities annotations := by
      rw [getManifestCapabilities_value annotations v h hv]
      simp only [stringsSplitPlus, List.mem_map]
      exact ⟨[], splitChars_empty_piece '+' v.data hplus, rfl⟩
    refine ⟨hmem, ?_⟩
    intro hor hnone
    have := (hiff.mp hnone) "" hmem
    rcases hor with hor | hor
    · exact hor this.1
    · exact hor this.2

/-! ## Uniqueness of the identities returned -/

theorem parseLoop_nodup (codec : Codec) :
    ∀ (docs : List Document) (ids : List resourceId) (acc : List Manifest),
      (acc.map (fun m => m.id)).Nodup → (∀ m ∈ acc, m.id ∈ ids) →
      ((parseLoop codec docs ids acc).2.1.map (fun m => m.id)).Nodup := by
  intro docs
  induction docs with
  | nil => intro ids acc h _; exact h
  | cons d rest ih =>
    intro ids acc hnd hids
    rcases document_cases codec d with hd | hd | hd
    · obtain ⟨e, he⟩ := decode_error_of_not_decodes codec d hd
      rw [parseLoop_cons_fail codec d rest ids acc e he]
      exact hnd
    · rw [parseLoop_cons_skip codec d rest ids acc hd]
      exact ih ids acc hnd hids
    · rw [parseLoop_cons_valid codec d rest ids acc hd]
      by_cases hmem : (docManifest codec d).id ∈ ids
      · rw [if_pos hmem]
        exact hnd
      · rw [if_neg hmem]
        apply ih
        · rw [List.map_append, List.map_singleton]
          refine List.Nodup.append hnd (List.nodup_singleton _) ?_
          intro x hx hx'
          rw [List.mem_singleton] at hx'
          subst hx'
          obtain ⟨m, hm, hmx⟩ := List.mem_map.mp hx
          exact hmem (hmx ▸ hids m hm)
        · intro m hm
          rcases List.mem_append.mp hm with h1 | h1
          · exact List.mem_cons_of_mem _ (hids m h1)
          · rw [List.mem_singleton] at h1
            subst h1
            exact List.mem_cons_self _ _

theorem ParseManifests_nodup (codec : Codec) (docs : List Document) :
    ((ParseManifests codec docs).1.map (fun m => m.id)).Nodup :=
  parseLoop_nodup codec docs [] [] List.nodup_nil (fun m hm => by simp at hm)

theorem ParseManifests_kind_name (codec : Codec) (docs : List Document) :
    ∀ m ∈ (ParseManifests codec docs).1, m.id.Kind ≠ "" ∧ m.id.Name ≠ "" := by
  intro m hm
  obtain ⟨d, _, hv, hmd⟩ := ParseManifests_output codec docs m hm
  obtain ⟨i, u, hd, hi, hc, hk, hn, _⟩ := (validResource_iff codec d).mp hv
  subst hd
  rw [hmd, docManifest_json codec i u hi hc]
  exact ⟨hk, hn⟩

theorem rangeManifests_no_errs (name : String) (ms : List Manifest) (ids : List resourceId)
    (errs : List Error) (h : (rangeManifests name ms ids errs).2 = []) :
    errs = [] ∧ ∀ m ∈ ms, m.id ∉ ids := by
  constructor
  · cases errs with
    | nil => rfl
    | cons e es =>
      have := rangeManifests_errs name ms ids (e :: es) e (List.mem_cons_self e es)
      rw [h] at this
      simp at this
  · intro m hm hid
    have := rangeManifests_duplicate name ms ids errs m hm hid
    rw [h] at this
    simp at this

theorem filesLoop_errs_kept (codec : Codec) (fs : FileSystem) :
    ∀ (files : List String) (st st' : LoadState),
      filesLoop codec fs files st = .ret st' → ∀ e ∈ st.errs, e ∈ st'.errs := by
  intro files
  induction files with
  | nil =>
    intro st st' h
    simp only [filesLoop, Outcome.ret.injEq] at h
    subst h
    exact fun _ he => he
  | cons f rest ih =>
    intro st st' h
    cases hfs : fs f with
    | none => simp [filesLoop, osOpen, hfs, File.Name, Outcome.bind] at h
    | some content =>
      simp only [filesLoop, osOpen, hfs] at h
      rcases hpc : ParseManifests codec content with ⟨ms, _ | e⟩
      · rw [hpc] at h
        simp only [File.Name, Outcome.bind] at h
        intro e he
        exact ih _ st' h e (rangeManifests_errs f ms st.ids st.errs e he)
      · rw [hpc] at h
        simp only [File.Name, Outcome.bind] at h
        intro x hx
        exact ih _ st' h x (List.mem_append_left _ hx)

theorem filesLoop_nodup (codec : Codec) (fs : FileSystem) :
    ∀ (files : List String) (st st' : LoadState),
      filesLoop codec fs files st = .ret st' → st'.errs = [] →
      (st.manifests.map (fun m => m.id)).Nodup → (∀ m ∈ st.manifests, m.id ∈ st.ids) →
      (∀ m ∈ st.manifests, m.id.Kind ≠ "" ∧ m.id.Name ≠ "") →
      (st'.manifests.map (fun m => m.id)).Nodup ∧
        ∀ m ∈ st'.manifests, m.id.Kind ≠ "" ∧ m.id.Name ≠ "" := by
  intro files
  induction files with
  | nil =>
    intro st st' h _ hnd _ hkn
    simp only [filesLoop, Outcome.ret.injEq] at h
    subst h
    exact ⟨hnd, hkn⟩
  | cons f rest ih =>
    intro st st' h herrs hnd hids hkn
    cases hfs : fs f with
    | none => simp [filesLoop, osOpen, hfs, File.Name, Outcome.bind] at h
    | some content =>
      simp only [filesLoop, osOpen, hfs] at h
      rcases hpc : ParseManifests codec content with ⟨ms, _ | e⟩
      · rw [hpc] at h
        simp only [File.Name, Outcome.bind] at h
        have hms_nd : (ms.map (fun m => m.id)).Nodup := by
          have := ParseManifests_nodup codec content
          rw [hpc] at this
          exact this
        have hms_kn : ∀ m ∈ ms, m.id.Kind ≠ "" ∧ m.id.Name ≠ "" := by
          have := ParseManifests_kind_name codec content
          rw [hpc] at this
          exact this
        have hkept := filesLoop_errs_kept codec fs rest _ st' h
        have hrange : (rangeManifests f ms st.ids st.errs).2 = [] := by
          cases hr : (rangeManifests f ms st.ids st.errs).2 with
          | nil => rfl
          | cons x xs =>
            have := hkept x (by simp [hr])
            rw [herrs] at this
            simp at this
        obtain ⟨_, hfresh⟩ := rangeManifests_no_errs f ms st.ids st.errs hrange
        refine ih _ st' h herrs ?_ ?_ ?_
        · rw [List.map_append]
          refine List.Nodup.append hnd hms_nd ?_
          intro x hx hx'
          obtain ⟨m, hm, hmx⟩ := List.mem_map.mp hx
          obtain ⟨m', hm', hmx'⟩ := List.mem_map.mp hx'
          exact hfresh m' hm' (by rw [hmx', ← hmx]; exact hids m hm)
        · intro m hm
          apply rangeManifests_ids
          rcases List.mem_append.mp hm with h1 | h1
          · exact Or.inl (hids m h1)
          · exact Or.inr (List.mem_map.mpr ⟨m, h1, rfl⟩)
        · intro m hm
          rcases List.mem_append.mp hm with h1 | h1
          · exact hkn m h1
          · exact hms_kn m h1
      · rw [hpc] at h
        simp only [File.Name, Outcome.bind] at h
        have := filesLoop_errs_kept codec fs rest _ st' h
          (.wrap e ("error parsing " ++ f)) (by simp)
        rw [herrs] at this
        simp at this

theorem nodup_map_distinct {α β : Type} (f : α → β) (l : List α) (h : (l.map f).Nodup)
    (i j : Nat) (a b : α) (hij : i ≠ j) (hi : l[i]? = some a) (hj : l[j]? = some b) :
    f a ≠ f b := by
  have key : ∀ (i j : Nat) (a b : α), i < j → l[i]? = some a → l[j]? = some b → f a ≠ f b := by
    intro i j a b hlt hi hj hab
    have hjlt : j < l.length := by
      by_contra hge
      rw [List.getElem?_eq_none (Nat.le_of_not_lt hge)] at hj
      exact Option.noConfusion hj
    have hne := List.nodup_iff_getElem?_ne_getElem?.mp h i j hlt (by simpa using hjlt)
    apply hne
    rw [List.getElem?_map, List.getElem?_map, hi, hj]
    simp [hab]
  rcases Nat.lt_or_gt_of_ne hij with hlt | hgt
  · exact key i j a b hlt hi hj
  · exact fun hab => key j i b a hgt hj hi hab.symm

theorem SameResourceID_false_of_ne (a b : Manifest) (h : a.id ≠ b.id) :
    a.SameResourceID b = false := by
  simp [Manifest.SameResourceID, resourceId.equal, h]

/-- C20: the identities of the manifests returned are unique. In the list
`ParseManifests` returns for any stream, with or without an error, and in the
list `ManifestsFromFiles` returns without error, no two manifests at different
positions satisfy `SameResourceID`, and every manifest has a non-empty kind and
name; `SameResourceID` holds exactly when group, kind, namespace and name are
all equal. -/
theorem returned_identities_unique (codec : Codec) (fs : FileSystem) (files : List String)
    (docs : List Document) (ms : List Manifest)
    (hload : ManifestsFromFiles codec fs files = .ret (ms, none)) :
    (∀ (i j : Nat) (a b : Manifest), i ≠ j → (ParseManifests codec docs).1[i]? = some a →
      (ParseManifests codec docs).1[j]? = some b → a.SameResourceID b = false) ∧
    (∀ m ∈ (ParseManifests codec docs).1, m.id.Kind ≠ "" ∧ m.id.Name ≠ "") ∧
    (∀ (i j : Nat) (a b : Manifest), i ≠ j → ms[i]? = some a → ms[j]? = some b →
      a.SameResourceID b = false) ∧
    (∀ m ∈ ms, m.id.Kind ≠ "" ∧ m.id.Name ≠ "") ∧
    (∀ a b : Manifest, a.SameResourceID b = true ↔
      a.id.Group = b.id.Group ∧ a.id.Kind = b.id.Kind ∧ a.id.Namespace = b.id.Namespace ∧
        a.id.Name = b.id.Name) := by
  have hfiles : (ms.map (fun m => m.id)).Nodup ∧ ∀ m ∈ ms, m.id.Kind ≠ "" ∧ m.id.Name ≠ "" := by
    unfold ManifestsFromFiles at hload
    cases hl : filesLoop codec fs files { manifests := [], ids := [], errs := [] } with
    | crash => simp [hl, Outcome.bind] at hload
    | ret st =>
      rw [hl] at hload
      simp only [Outcome.bind] at hload
      by_cases herr : st.errs ≠ []
      · simp [herr] at hload
      · simp only [herr, if_false, Outcome.ret.injEq, Prod.mk.injEq, and_true] at hload
        subst hload
        exact filesLoop_nodup codec fs files _ st hl (by simpa using herr) List.nodup_nil
          (fun m hm => by simp at hm) (fun m hm => by simp at hm)
  refine ⟨?_, ParseManifests_kind_name codec docs, ?_, hfiles.2, ?_⟩
  · intro i j a b hij hi hj
    exact SameResourceID_false_of_ne a b
      (nodup_map_distinct (fun m => m.id) _ (ParseManifests_nodup codec docs) i j a b hij hi hj)
  · intro i j a b hij hi hj
    exact SameResourceID_false_of_ne a b
      (nodup_map_distinct (fun m => m.id) _ hfiles.1 i j a b hij hi hj)
  · intro a b
    rcases a with ⟨_, ⟨g1, k1, n1, ns1⟩, _, _, _⟩
    rcases b with ⟨_, ⟨g2, k2, n2, ns2⟩, _, _, _⟩
    simp only [Manifest.SameResourceID, resourceId.equal, decide_eq_true_eq,
      resourceId.mk.injEq]
    constructor
    · rintro ⟨h1, h2, h3, h4⟩
      exact ⟨h1, h2, h4, h3⟩
    · rintro ⟨h1, h2, h3, h4⟩
      exact ⟨h1, h2, h4, h3⟩

/-! ## Evaluations of the criteria -/

/-- The theorem `Include_no_annotations` applied to a pod without annotations. -/
theorem Include_no_annotations_witness :
    (annotatedManifest none).Include (some "internal") (some true) (some DefaultClusterProfile)
        (some { EnabledCapabilities := [], KnownCapabilities := [] }) =
      .ret (some (.text "no annotations")) ∧
    (annotatedManifest none).Include none none none none = .ret (some (.text "no annotations")) :=
  Include_no_annotations (annotatedManifest none) (annotatedObject none) rfl rfl
    (some "internal") (some true) (some DefaultClusterProfile)
    (some { EnabledCapabilities := [], KnownCapabilities := [] })

/-- The theorem `Include_ignores_capability_annotation` applied to two pods that
differ in the capability annotation alone. -/
theorem Include_ignores_capability_annotation_witness :
    (annotatedManifest (some [("include.release.openshift.io/self-managed-high-availability",
        "true")])).Include (some "internal") (some false) (some DefaultClusterProfile) none =
    (annotatedManifest (some [( CapabilityAnnotation, "Unknown1"),
        ("include.release.openshift.io/self-managed-high-availability", "true")])).Include
      (some "internal") (some false) (some DefaultClusterProfile) none :=
  Include_ignores_capability_annotation _ _ _ _ _ _ rfl rfl rfl rfl
    (by
      intro key hkey
      have h : (key == CapabilityAnnotation) = false := by simpa using hkey
      simp [List.lookup, h])
    (some "internal") (some false) (some DefaultClusterProfile)

/-- The theorem `Include_profile` applied to a pod tagged `True` for the default
profile: the value is not `true` and the pod is excluded. -/
theorem Include_profile_witness :
    (annotatedManifest (some [("include.release.openshift.io/self-managed-high-availability",
        "True")])).Include none none (some DefaultClusterProfile) none =
      .ret (some (.text ("unrecognized value " ++
        ("include.release.openshift.io/" ++ DefaultClusterProfile) ++ "=" ++ "True"))) :=
  (Include_profile (annotatedManifest (some
      [("include.release.openshift.io/self-managed-high-availability", "True")])) _ _ rfl rfl
    DefaultClusterProfile).2.2 "True" (by decide) (by decide)

/-- The theorem `Include_techPreview` applied to a pod gated by the marker. -/
theorem Include_techPreview_witness :
    (∃ err, (annotatedManifest (some [("release.openshift.io/feature-gate",
        TechPreviewNoUpgrade)])).Include none (some false) none none = .ret (some err)) ∧
    (annotatedManifest (some [("release.openshift.io/feature-gate",
        TechPreviewNoUpgrade)])).Include none (some true) none none = .ret none :=
  have h := Include_techPreview (annotatedManifest (some
    [("release.openshift.io/feature-gate", TechPreviewNoUpgrade)])) _ _ rfl rfl
  ⟨h.1 (by decide), h.2.2 (by decide)⟩

/-- The theorem `Include_exclude` applied to a pod excluded for `internal`. -/
theorem Include_exclude_witness :
    ∃ err, (annotatedManifest (some [("exclude.release.openshift.io/internal",
        "true")])).Include (some "internal") none none none = .ret (some err) :=
  (Include_exclude (annotatedManifest (some [("exclude.release.openshift.io/internal",
      "true")])) _ _ rfl rfl "internal").1.mpr (by decide)

/-- The theorem `checkResourceEnablement_precedence` applied to the two examples
of the specification: `Unknown1+Storage` with `Storage` known reports
`Unknown1` alone, and `Storage+Build` with `Storage`, `Build`, `Console` known
and `Storage` enabled reports `Build` alone. -/
theorem checkResourceEnablement_precedence_witness :
    checkResourceEnablement [( CapabilityAnnotation, "Unknown1+Storage")]
        { EnabledCapabilities := [], KnownCapabilities := ["Storage"] } =
      some (.text "unrecognized capability names: Unknown1") ∧
    checkResourceEnablement [( CapabilityAnnotation, "Storage+Build")]
        { EnabledCapabilities := ["Storage"],
          KnownCapabilities := ["Storage", "Build", "Console"] } =
      some (.text "disabled capabilities: Build") :=
  ⟨((checkResourceEnablement_precedence [( CapabilityAnnotation, "Unknown1+Storage")]
        { EnabledCapabilities := [], KnownCapabilities := ["Storage"] }).1
      ⟨"Unknown1", by decide, by decide⟩).trans (by decide),
    ((checkResourceEnablement_precedence [( CapabilityAnnotation, "Storage+Build")]
        { EnabledCapabilities := ["Storage"],
          KnownCapabilities := ["Storage", "Build", "Console"] }).2
      (by decide) ⟨"Build", by decide, by decide⟩).trans (by decide)⟩

/-- The theorem `getManifestCapabilities_split` applied to the value
`Storage+Build`. -/
theorem getManifestCapabilities_split_witness :
    (getManifestCapabilities [( CapabilityAnnotation, "Storage+Build")]).length =
        "Storage+Build".data.count '+' + 1 ∧
    (∀ c ∈ getManifestCapabilities [( CapabilityAnnotation, "Storage+Build")], '+' ∉ c.data) ∧
    "+".intercalate (getManifestCapabilities [( CapabilityAnnotation, "Storage+Build")]) =
      "Storage+Build" :=
  (getManifestCapabilities_split [( CapabilityAnnotation, "Storage+Build")]).2.2
    "Storage+Build" (by decide) (by decide)

/-- The theorem `checkResourceEnablement_exact` applied to the value `Storage+`
with `Storage` known and enabled: the empty name is named and rejected. -/
theorem checkResourceEnablement_exact_witness :
    "" ∈ getManifestCapabilities [( CapabilityAnnotation, "Storage+")] ∧
    checkResourceEnablement [( CapabilityAnnotation, "Storage+")]
      { EnabledCapabilities := ["Storage"], KnownCapabilities := ["Storage"] } ≠ none :=
  have h := (checkResourceEnablement_exact [( CapabilityAnnotation, "Storage+")]
    { EnabledCapabilities := ["Storage"], KnownCapabilities := ["Storage"] }).2.2.2
    "Storage+" (by decide) (by decide) (Or.inr (Or.inl ⟨"Storage".data, by decide⟩))
  ⟨h.1, h.2 (Or.inl (by decide))⟩

/-- The theorem `Include_techPreview_exact` applied to a pod whose feature-gate
annotation is the empty string. -/
theorem Include_techPreview_exact_witness :
    ∃ err, (annotatedManifest (some [("release.openshift.io/feature-gate", "")])).Include
      none (some true) none none = .ret (some err) :=
  (Include_techPreview_exact (annotatedManifest (some
      [("release.openshift.io/feature-gate", "")])) _ _ rfl rfl true).2.1 (by decide)

/-- The theorem `returned_identities_unique` applied to two files of the example
directory and to the example stream. -/
theorem returned_identities_unique_witness :
    ManifestsFromFiles exampleCodec exampleFiles ["/manifests/a.yaml", "/manifests/c.yaml"] =
      .ret ((["/manifests/a.yaml", "/manifests/c.yaml"].map
        (parsedManifests exampleCodec exampleFiles)).flatten, none) ∧
    (∀ m ∈ (["/manifests/a.yaml", "/manifests/c.yaml"].map
        (parsedManifests exampleCodec exampleFiles)).flatten,
      m.id.Kind ≠ "" ∧ m.id.Name ≠ "") :=
  ⟨by decide,
    (returned_identities_unique exampleCodec exampleFiles
      ["/manifests/a.yaml", "/manifests/c.yaml"] exampleStream _ (by decide)).2.2.2.1⟩

end manifest
